import Mathlib

/-!
Verification of `src/core/divelist.c` (subsurface dive-log core).

Shallow embedding conventions:
* C `timestamp_t` (int64), dive ids, dive numbers and `int` fields are
  modelled as `Int`; the claims proved here never reach the overflow
  boundaries, except for the process-wide `unsigned int amount_selected`
  counter whose increments/decrements are modelled with explicit
  wrap-around modulo 2^32 (`inc32`/`dec32`).
* C pointers to heap objects are modelled by the objects' stable identity
  fields: a `struct dive *` by the dive's `id` (the source insists dive
  identity is the `id`, never the address), a `struct dive_trip *` by a
  model-level allocation tag `tid` threaded through a `next_tid` counter.
  `dive->divetrip` becomes `Option Int` (a trip tag or none) and
  `trip->dives` a list of dive ids.
* External collaborators declared in other translation units
  (`try_to_merge`, `gas_volume`, `is_cylinder_used`, `depth_to_atm`) are
  parameters of the definitions that call them.  Collaborators with a
  fixed simple meaning are translated directly: `dive_endtime` is
  `when + duration`, `copy_string` returns `none` for NULL/empty input,
  `empty_string` tests NULL/empty, `get_dive_location` reads the dive's
  location string.
* Fallible code and the one `assert` are modelled with `Option`.
-/

namespace Divelist

/-- A dive record: the fields of `struct dive` that `divelist.c` reads or
writes (id, start time, user-visible number, duration seconds, selection
and filter flags, `notrip`, the trip back-reference and the location
string used when creating trips). -/
structure Dive where
  id : Int
  dwhen : Int
  number : Int
  duration : Int
  selected : Bool
  hidden_by_filter : Bool
  notrip : Bool
  divetrip : Option Int
  location : Option String
deriving Repr, DecidableEq

/-- A trip record (`struct dive_trip`): allocation tag (models the
pointer), location, notes, `autogen` flag and the ordered sub-table of
dives, kept as dive ids. -/
structure Trip where
  tid : Int
  location : Option String
  notes : Option String
  autogen : Bool
  dives : List Int
deriving Repr, DecidableEq

/-- Collaborator `dive_endtime` (dive.c): start time plus duration. -/
def dive_endtime (d : Dive) : Int := d.dwhen + d.duration

/-- Collaborator `copy_string` (subsurface-string.h): `strdup` for a
non-empty string, NULL otherwise. -/
def copy_string (s : Option String) : Option String :=
  match s with
  | none => none
  | some str => if str = "" then none else some str

/-- Collaborator `empty_string`: true for NULL or the empty string. -/
def empty_string (s : Option String) : Bool :=
  match s with
  | none => true
  | some str => str = ""

/-- Collaborator `get_dive_location` (dive.c): the dive's location
string, possibly NULL. -/
def get_dive_location (d : Dive) : Option String := d.location

/-- Look a dive up by id in a dive store (models following a
`struct dive *`). -/
def find_dive_by_id (ds : List Dive) (i : Int) : Option Dive :=
  ds.find? (fun d => d.id == i)

/-- Look a trip up by tag in a trip store (models following a
`struct dive_trip *`). -/
def find_trip_by_tid (ts : List Trip) (t : Int) : Option Trip :=
  ts.find? (fun x => x.tid == t)

/-- `trip_date`: the `when` of the trip's first dive, 0 for an empty
trip.  The dive ids of the trip are resolved in the dive store `ds`. -/
def trip_date (ds : List Dive) (t : Trip) : Int :=
  match t.dives with
  | [] => 0
  | d0 :: _ => ((find_dive_by_id ds d0).map Dive.dwhen).getD 0

/-- `trip_enddate`: the end time of the trip's last dive, 0 for an empty
trip. -/
def trip_enddate (ds : List Dive) (t : Trip) : Int :=
  match t.dives.getLast? with
  | none => 0
  | some dn => ((find_dive_by_id ds dn).map dive_endtime).getD 0

/-- `trip_date` applied through a `dive->divetrip` reference: resolves
the trip tag in the trip store `ts`. -/
def trip_date_ref (ds : List Dive) (ts : List Trip) (r : Option Int) : Int :=
  match r with
  | none => 0
  | some t => ((find_trip_by_tid ts t).map (trip_date ds)).getD 0

/-- `comp_dives`: lexicographic comparison on (when, trip bucket,
trip date, id).  Dives without a trip sort after dives with a trip at
the same `when`; the pointer comparison `a->divetrip != b->divetrip` is
modelled by comparing the trip tags. -/
def comp_dives (ds : List Dive) (ts : List Trip) (a b : Dive) : Int :=
  if a.dwhen < b.dwhen then -1
  else if a.dwhen > b.dwhen then 1
  else if a.divetrip ≠ b.divetrip ∧ b.divetrip = none then -1
  else if a.divetrip ≠ b.divetrip ∧ a.divetrip = none then 1
  else if a.divetrip ≠ b.divetrip ∧
          trip_date_ref ds ts a.divetrip < trip_date_ref ds ts b.divetrip then -1
  else if a.divetrip ≠ b.divetrip ∧
          trip_date_ref ds ts a.divetrip > trip_date_ref ds ts b.divetrip then 1
  else if a.id < b.id then -1
  else if a.id > b.id then 1
  else 0

/-- `dive_less_than`. -/
def dive_less_than (ds : List Dive) (ts : List Trip) (a b : Dive) : Bool :=
  comp_dives ds ts a b < 0

/-- `comp_trips`: compare trips by their first dive; trips without dives
defensively sort first. -/
def comp_trips (ds : List Dive) (ts : List Trip) (a b : Trip) : Int :=
  match a.dives, b.dives with
  | [], [] => 0
  | [], _ :: _ => -1
  | _ :: _, [] => 1
  | a0 :: _, b0 :: _ =>
    match find_dive_by_id ds a0, find_dive_by_id ds b0 with
    | some da, some db => comp_dives ds ts da db
    | _, _ => 0

/-- `trip_less_than`. -/
def trip_less_than (ds : List Dive) (ts : List Trip) (a b : Trip) : Bool :=
  comp_trips ds ts a b < 0

/-! ### `get_surface_interval` (divelist.c:1944) -/

/-- The backwards scan of `get_surface_interval`: the C loop runs from
the end of the table towards the front and stops at the first dive with
`when < w`, i.e. it finds the last dive in table order whose start time
is strictly before `w`. -/
def find_prev_dive (table : List Dive) (w : Int) : Option Dive :=
  match table with
  | [] => none
  | d :: rest =>
    match find_prev_dive rest w with
    | some p => some p
    | none => if d.dwhen < w then some d else none

/-- `get_surface_interval(when)`: -1 when there is no previous dive,
0 when the previous dive's end time exceeds `when`, otherwise the gap. -/
def get_surface_interval (table : List Dive) (w : Int) : Int :=
  match find_prev_dive table w with
  | none => -1
  | some prev =>
    let prev_end := dive_endtime prev
    if prev_end > w then 0 else w - prev_end

/-! ### `get_dive_id_closest_to` (divelist.c:1854) -/

/-- The forward scan of `get_dive_id_closest_to`: the index of the first
dive with `when > w`, i.e. the length of the maximal prefix of dives
with `when ≤ w` (the C loop `for (i = 0; i < nr && when_i <= w; i++)`). -/
def closest_scan (table : List Dive) (w : Int) : Nat :=
  match table with
  | [] => 0
  | d :: rest => if d.dwhen ≤ w then closest_scan rest w + 1 else 0

/-- The `id` of the dive at index `k`, 0 out of range (the C code only
indexes in range on the paths below). -/
def id_at (table : List Dive) (k : Nat) : Int :=
  (table[k]?.map Dive.id).getD 0

/-- The `when` of the dive at index `k`, 0 out of range. -/
def when_at (table : List Dive) (k : Nat) : Int :=
  (table[k]?.map Dive.dwhen).getD 0

/-- The index of the dive chosen by `get_dive_id_closest_to` for a table
with at least two dives: the last dive when the scan ran off the end,
the first when it stopped immediately, otherwise the nearer of the two
neighbours of `w` with ties going to the later dive. -/
def closest_choice (table : List Dive) (w : Int) : Nat :=
  let nr := table.length
  let i := closest_scan table w
  if i = nr then nr - 1
  else if i = 0 then 0
  else if w - when_at table (i - 1) < when_at table i - w then i - 1
  else i

/-- `get_dive_id_closest_to(when)`: 0 for an empty table, the unique id
for a one-dive table, otherwise the id of the dive at the chosen
index. -/
def get_dive_id_closest_to (table : List Dive) (w : Int) : Int :=
  match table with
  | [] => 0
  | [d] => d.id
  | _ => id_at table (closest_choice table w)

/-! ### `calculate_airuse` / `calculate_sac` (divelist.c:420,448) -/

/-- The pressure fields of a `cylinder_t` that `calculate_airuse` reads
(mbar; 0 models a missing reading). -/
structure Cylinder where
  start_mbar : Int
  end_mbar : Int
  sample_start_mbar : Int
  sample_end_mbar : Int
deriving Repr, DecidableEq

/-- The effective start pressure: the logged start pressure if present,
else the first sample pressure (`cyl->start.mbar ? cyl->start :
cyl->sample_start`). -/
def cyl_start_pressure (c : Cylinder) : Int :=
  if c.start_mbar ≠ 0 then c.start_mbar else c.sample_start_mbar

/-- The effective end pressure. -/
def cyl_end_pressure (c : Cylinder) : Int :=
  if c.end_mbar ≠ 0 then c.end_mbar else c.sample_end_mbar

/-- The cylinder loop of `calculate_airuse`, accumulating millilitres:
`none` models the early `return 0.0` taken when a used cylinder has no
usable pressure drop.  `gv` is the collaborator `gas_volume(cyl, p)` and
`used` the collaborator `is_cylinder_used(dive, i)`. -/
def airuse_loop (gv : Cylinder → Int → Int) (used : Nat → Bool) :
    List Cylinder → Nat → Option Int
  | [], _ => some 0
  | cyl :: rest, i =>
    let ps := cyl_start_pressure cyl
    let pe := cyl_end_pressure cyl
    if pe = 0 ∨ ps ≤ pe then
      if used i then none
      else airuse_loop gv used rest (i + 1)
    else
      (airuse_loop gv used rest (i + 1)).map fun s => gv cyl ps - gv cyl pe + s

/-- `calculate_airuse`: air use in litres (the C double `airuse / 1000.0`
is modelled exactly as a rational). -/
def calculate_airuse (gv : Cylinder → Int → Int) (used : Nat → Bool)
    (cyls : List Cylinder) : ℚ :=
  match airuse_loop gv used cyls 0 with
  | none => 0
  | some a => (a : ℚ) / 1000

/-- `calculate_sac`: mL/min.  `datm` is the collaborator
`depth_to_atm(mm, dive)` and `lri` the C library `lrint`, both taken as
parameters; the claims below only use the early-return paths, which do
not reach them. -/
def calculate_sac (gv : Cylinder → Int → Int) (used : Nat → Bool)
    (datm : Int → ℚ) (lri : ℚ → Int)
    (cyls : List Cylinder) (duration meandepth : Int) : Int :=
  let airuse := calculate_airuse gv used cyls
  if airuse = 0 then 0
  else if duration = 0 then 0
  else if meandepth = 0 then 0
  else lri (airuse / datm meandepth * 60 / duration * 1000)

/-! ### Trip registry operations (divelist.c:1028-1072,1340-1356) -/

/-- `alloc_trip`: a zero-initialized trip; the model hands out the
allocation tag `next_tid`. -/
def alloc_trip (next_tid : Int) : Trip :=
  { tid := next_tid, location := none, notes := none, autogen := false, dives := [] }

/-- `create_trip_from_dive`: a fresh trip whose location is copied from
the dive. -/
def create_trip_from_dive (d : Dive) (next_tid : Int) : Trip :=
  { alloc_trip next_tid with location := copy_string (get_dive_location d) }

/-- `get_idx_in_trip_table`: pointer-equality scan returning the first
matching index, -1 on miss; pointer equality is modelled by the
allocation tag. -/
def get_idx_in_trip_table : List Trip → Trip → Int
  | [], _ => -1
  | x :: rest, t =>
    if x.tid == t.tid then 0
    else
      let r := get_idx_in_trip_table rest t
      if r < 0 then -1 else r + 1

/-- `unregister_trip`: asserts that the trip has no dives (modelled as
`none`), then removes the trip from the table if present. -/
def unregister_trip (t : Trip) (table : List Trip) : Option (List Trip) :=
  let idx := get_idx_in_trip_table table t
  if t.dives.length ≠ 0 then none
  else some (if 0 ≤ idx then table.eraseIdx idx.toNat else table)

/-- `copy_non_empty_string`: copy whichever of the two strings is not
empty, looking at `b` first. -/
def copy_non_empty_string (a b : Option String) : Option String :=
  copy_string (if empty_string b then a else b)

/-- `combine_trips`: a fresh trip combining the fields of two trips; no
dives are moved. -/
def combine_trips (trip_a trip_b : Trip) (next_tid : Int) : Trip :=
  let trip := alloc_trip next_tid
  { trip with
    location := copy_non_empty_string trip_a.location trip_b.location,
    notes := copy_non_empty_string trip_a.notes trip_b.notes }

/-! ### Global state and selection (divelist.c:1196-1336) -/

/-- The process-wide mutable state of divelist.c: the global dive table,
the global trip table, the `unsigned int amount_selected` counter, the
`current_dive` pointer (modelled by a dive id) and the model-level trip
allocation counter. -/
structure St where
  dives : List Dive
  trips : List Trip
  amount_selected : Nat
  current_dive : Option Int
  next_tid : Int
deriving Repr, DecidableEq

/-- Increment of the 32-bit unsigned `amount_selected`. -/
def inc32 (n : Nat) : Nat := (n + 1) % 2 ^ 32

/-- Decrement of the 32-bit unsigned `amount_selected` (wraps at 0 like
the C `--`). -/
def dec32 (n : Nat) : Nat := (n + (2 ^ 32 - 1)) % 2 ^ 32

/-- `get_dive(idx)`: NULL out of range. -/
def get_dive (tbl : List Dive) (i : Nat) : Option Dive := tbl[i]?

/-- `get_divenr`: index of the first dive with the given id (identity is
the id, never the address), -1 on miss. -/
def get_divenr : List Dive → Int → Int
  | [], _ => -1
  | d :: rest, i =>
    if d.id == i then 0
    else
      let r := get_divenr rest i
      if r < 0 then -1 else r + 1

/-- The backwards promotion scan of `deselect_dive`: the C loop
`while (--selected_dive >= 0)` starting from index `k`, returning the
first selected dive it meets. -/
def scan_back (tbl : List Dive) : Nat → Option Dive
  | 0 => none
  | k + 1 =>
    match tbl[k]? with
    | some d => if d.selected then some d else scan_back tbl k
    | none => scan_back tbl k

/-- The forwards promotion scan of `deselect_dive`: the first selected
dive at index ≥ `k` (the C loop `while (++selected_dive <
dive_table.nr)`). -/
def scan_fwd (tbl : List Dive) (k : Nat) : Option Dive :=
  if h : k < tbl.length then
    if tbl[k].selected then some tbl[k] else scan_fwd tbl (k + 1)
  else none
termination_by tbl.length - k

/-- `deselect_dive` on the dive at index `i` of the global table (the C
function receives the dive by pointer; a pointer to a table member is
modelled by its index).  Clears the flag, decrements the counter, and
either promotes a neighbouring selected dive to `current_dive` or clears
`current_dive`. -/
def deselect_dive (s : St) (i : Nat) : St :=
  match s.dives[i]? with
  | none => s
  | some d =>
    if d.selected then
      let tbl := s.dives.set i { d with selected := false }
      let amo := if s.amount_selected ≠ 0 then dec32 s.amount_selected else s.amount_selected
      if s.current_dive = some d.id ∧ 0 < amo then
        let idx := get_divenr tbl d.id
        match scan_back tbl idx.toNat with
        | some d2 => { s with dives := tbl, amount_selected := amo, current_dive := some d2.id }
        | none =>
          match scan_fwd tbl (idx + 1).toNat with
          | some d2 => { s with dives := tbl, amount_selected := amo, current_dive := some d2.id }
          | none => { s with dives := tbl, amount_selected := amo, current_dive := none }
      else
        { s with dives := tbl, amount_selected := amo, current_dive := none }
    else s

/-- `select_dive` on the dive at index `i`: sets the flag, bumps the
counter if it was clear, and makes the dive current. -/
def select_dive (s : St) (i : Nat) : St :=
  match s.dives[i]? with
  | none => s
  | some d =>
    let s2 :=
      if !d.selected then
        { s with dives := s.dives.set i { d with selected := true },
                 amount_selected := inc32 s.amount_selected }
      else s
    { s2 with current_dive := some d.id }

/-- `filter_dive` on the dive at index `i`: records the filter verdict
and deselects a hidden selected dive. -/
def filter_dive (s : St) (i : Nat) (shown : Bool) : St :=
  match s.dives[i]? with
  | none => s
  | some d =>
    let s2 := { s with dives := s.dives.set i { d with hidden_by_filter := !shown } }
    if !shown ∧ d.selected then deselect_dive s2 i else s2

/-- `unregister_dive(idx)`: removes the dive from the global table,
keeps the selection counter in sync, clears the removed dive's selected
flag and returns it. -/
def unregister_dive (s : St) (idx : Nat) : St × Option Dive :=
  match s.dives[idx]? with
  | none => (s, none)
  | some d =>
    ({ s with dives := s.dives.eraseIdx idx,
              amount_selected := if d.selected then dec32 s.amount_selected
                                 else s.amount_selected },
     some { d with selected := false })

/-- `add_single_dive(idx, dive)`: inserts at the index and bumps the
selection counter for an already-selected dive. -/
def add_single_dive (s : St) (idx : Nat) (d : Dive) : St :=
  { s with dives := s.dives.insertIdx idx d,
           amount_selected := if d.selected then inc32 s.amount_selected
                              else s.amount_selected }

/-- `remove_dive(table, dive)` on a trip's id list: pointer scan and
removal. -/
def remove_dive_id (dives : List Int) (i : Int) : List Int :=
  match dives.findIdx? (fun x => x == i) with
  | some k => dives.eraseIdx k
  | none => dives

/-- `unregister_dive_from_trip` on the dive at index `idx`: removes the
dive from its trip's sub-table, clears the back reference, and returns
the trip's tag (`none` when the dive had no trip). -/
def unregister_dive_from_trip (s : St) (idx : Nat) : St × Option Int :=
  match s.dives[idx]? with
  | none => (s, none)
  | some d =>
    match d.divetrip with
    | none => (s, none)
    | some t =>
      let trips := s.trips.map fun x =>
        if x.tid = t then { x with dives := remove_dive_id x.dives d.id } else x
      ({ s with trips := trips, dives := s.dives.set idx { d with divetrip := none } },
       some t)

/-- `delete_trip`: unregister (the dive list is empty at every call
site, so the assertion passes) and free. -/
def delete_trip (t : Trip) (table : List Trip) : List Trip :=
  (unregister_trip t table).getD table

/-- `remove_dive_from_trip` on the dive at index `idx`: as
`unregister_dive_from_trip`, but deletes the trip when it became
empty. -/
def remove_dive_from_trip (s : St) (idx : Nat) : St :=
  let r := unregister_dive_from_trip s idx
  match r.2 with
  | none => r.1
  | some t =>
    match find_trip_by_tid r.1.trips t with
    | none => r.1
    | some trip =>
      if trip.dives.length = 0 then { r.1 with trips := delete_trip trip r.1.trips }
      else r.1

/-- `delete_single_dive(idx)`: deselect if needed, detach from the trip,
then remove from the table (`delete_dive_from_table` frees and
shrinks). -/
def delete_single_dive (s : St) (idx : Nat) : St :=
  match s.dives[idx]? with
  | none => s
  | some d =>
    let s1 := if d.selected then deselect_dive s idx else s
    let s2 := remove_dive_from_trip s1 idx
    { s2 with dives := s2.dives.eraseIdx idx }

/-- The number of selected dives in a table (the right-hand side of the
`amount_selected` invariant). -/
def count_selected (tbl : List Dive) : Nat :=
  (tbl.filter (·.selected)).length

/-- The selection invariant: `amount_selected` equals the number of
selected dives in the global dive table. -/
def sel_inv (s : St) : Prop :=
  s.amount_selected = count_selected s.dives

/-! ### Sorted insertion and table sorting (divelist.c:903-976,1420) -/

/-- `dive_table_get_insertion_index`: the first index whose entry the
item compares below, or the table length.  `ds`/`ts` are the stores in
which `comp_dives` resolves trip references. -/
def dive_insertion_index (ds : List Dive) (ts : List Trip) (item : Dive) :
    List Dive → Nat
  | [] => 0
  | x :: rest =>
    if dive_less_than ds ts item x then 0
    else dive_insertion_index ds ts item rest + 1

/-- `insert_dive`: insert at the insertion index. -/
def insert_dive (ds : List Dive) (ts : List Trip) (table : List Dive) (d : Dive) :
    List Dive :=
  table.insertIdx (dive_insertion_index ds ts d table) d

/-- `trip_table_get_insertion_index`. -/
def trip_insertion_index (ds : List Dive) (ts : List Trip) (item : Trip) :
    List Trip → Nat
  | [] => 0
  | x :: rest =>
    if trip_less_than ds ts item x then 0
    else trip_insertion_index ds ts item rest + 1

/-- `insert_trip`: place the trip at its insertion index. -/
def insert_trip (ds : List Dive) (ts : List Trip) (t : Trip) (table : List Trip) :
    List Trip :=
  table.insertIdx (trip_insertion_index ds ts t table) t

/-- One step of the comparison sort modelling `qsort` on the dive table:
insert in front of the first larger element. -/
def insert_sorted_dive (lt : Dive → Dive → Bool) (d : Dive) : List Dive → List Dive
  | [] => [d]
  | x :: xs => if lt d x then d :: x :: xs else x :: insert_sorted_dive lt d xs

/-- `sort_dive_table`: a comparison sort with `comp_dives` (C uses
`qsort`; any comparison sort agrees with it up to ties, and `comp_dives`
is total on distinct ids). -/
def sort_dive_table (ds : List Dive) (ts : List Trip) (table : List Dive) :
    List Dive :=
  table.foldr (insert_sorted_dive (dive_less_than ds ts)) []

/-- One step of the comparison sort on the trip table. -/
def insert_sorted_trip (lt : Trip → Trip → Bool) (t : Trip) : List Trip → List Trip
  | [] => [t]
  | x :: xs => if lt t x then t :: x :: xs else x :: insert_sorted_trip lt t xs

/-- `sort_trip_table`. -/
def sort_trip_table (ds : List Dive) (ts : List Trip) (table : List Trip) :
    List Trip :=
  table.foldr (insert_sorted_trip (trip_less_than ds ts)) []

/-! ### Autogrouping (divelist.c:1105-1194,1371-1385) -/

/-- Modelled from the spec: the constant `TRIP_THRESHOLD`, the maximal
temporal distance between consecutive dives that still belong to one
autogroup trip.  Its definition lives in a header outside `src/`;
subsurface uses two days, and the claims below only compare timestamps
against it. -/
def TRIP_THRESHOLD : Int := 3600 * 24 * 2

/-- The dives of a trip resolved to records in the store `ds`. -/
def trip_dives_resolved (ds : List Dive) (t : Trip) : List Dive :=
  t.dives.filterMap (find_dive_by_id ds)

/-- `add_dive_to_trip`: no-op when the dive is already in the trip,
otherwise insert the dive at its insertion index in the trip's sub-table
and set the back reference.  Returns the updated dive and trip (the C
function mutates both through pointers). -/
def add_dive_to_trip (ds : List Dive) (ts : List Trip) (d : Dive) (t : Trip) :
    Dive × Trip :=
  if d.divetrip = some t.tid then (d, t)
  else
    let idx := dive_insertion_index ds ts d (trip_dives_resolved ds t)
    ({ d with divetrip := some t.tid }, { t with dives := t.dives.insertIdx idx d.id })

/-- The inner loop of `get_dives_to_autogroup`: extend the range while
the next dive is tripless, groupable and within `TRIP_THRESHOLD` of its
predecessor, filling the trip's location from the first dive that has
one.  Returns the possibly-updated trip and the exclusive upper index
`tto`. -/
def autogroup_collect (lastdive : Dive) (trip : Trip) :
    List Dive → Nat → Trip × Nat
  | [], tto => (trip, tto)
  | dive :: rest, tto =>
    if dive.divetrip.isSome || dive.notrip ||
       decide (dive.dwhen ≥ lastdive.dwhen + TRIP_THRESHOLD) then
      (trip, tto)
    else
      let trip2 :=
        if (get_dive_location dive).isSome ∧ trip.location = none then
          { trip with location := copy_string (get_dive_location dive) }
        else trip
      autogroup_collect dive trip2 rest (tto + 1)

/-- The outer scan of `get_dives_to_autogroup` over the table suffix
starting at absolute index `i`, remembering the previous groupable dive.
Returns the target trip, the range `[from, to)` and the allocation flag.
Looking up a `lastdive->divetrip` that is missing from the store cannot
happen in a well-formed state; the model returns a dummy trip there. -/
def autogroup_scan (ts : List Trip) (next_tid : Int) :
    List Dive → Nat → Option Dive → Option (Trip × Nat × Nat × Bool)
  | [], _, _ => none
  | dive :: rest, i, lastdive =>
    if dive.divetrip.isSome then autogroup_scan ts next_tid rest (i + 1) (some dive)
    else if dive.notrip then autogroup_scan ts next_tid rest (i + 1) none
    else
      let fresh := { create_trip_from_dive dive next_tid with autogen := true }
      let alloc :=
        match lastdive with
        | none => true
        | some ld => decide (dive.dwhen ≥ ld.dwhen + TRIP_THRESHOLD)
      let trip :=
        if alloc then fresh
        else
          match lastdive with
          | none => fresh
          | some ld => ((ld.divetrip.bind (find_trip_by_tid ts)).getD fresh)
      let (trip2, tto) := autogroup_collect dive trip rest (i + 1)
      some (trip2, i, tto, alloc)

/-- Write an updated trip object back over its store entry (models the
in-place mutation of a trip that is already registered). -/
def write_back_trip (ts : List Trip) (t : Trip) : List Trip :=
  ts.map fun x => if x.tid = t.tid then t else x

/-- The state `autogroup_dives` works on: the dive table being grouped,
the trip table receiving new trips, and the allocation counter. -/
structure AgState where
  table : List Dive
  trips : List Trip
  next_tid : Int
deriving Repr, DecidableEq

/-- The `for (j = from; j < to; ++j) add_dive_to_trip(...)` loop:
`cnt = to - from` dives starting at index `frm` are added to the trip;
the trip store is kept in sync after each step so that later comparisons
see the mutated trip. -/
def add_range_to_trip (st : AgState) (trip : Trip) : Nat → Nat → AgState × Trip
  | _, 0 => (st, trip)
  | frm, n + 1 =>
    match st.table[frm]? with
    | none => (st, trip)
    | some d =>
      let (d2, t2) := add_dive_to_trip st.table st.trips d trip
      add_range_to_trip
        { st with table := st.table.set frm d2, trips := write_back_trip st.trips t2 }
        t2 (frm + 1) n

/-- The loop of `autogroup_dives`: repeatedly find a range to autogroup,
attach its dives, and register a freshly allocated trip.  The C loop
advances `i` to `to ≥ i + 1` each round, so `table.length + 1` rounds of
fuel always suffice. -/
def autogroup_loop : Nat → AgState → Nat → AgState
  | 0, st, _ => st
  | fuel + 1, st, i =>
    match autogroup_scan st.trips st.next_tid (st.table.drop i) i none with
    | none => st
    | some (trip, frm, tto, alloc) =>
      let (st2, trip2) := add_range_to_trip st trip frm (tto - frm)
      let st3 :=
        if alloc then
          { st2 with trips := insert_trip st2.table st2.trips trip2 st2.trips,
                     next_tid := st2.next_tid + 1 }
        else st2
      autogroup_loop fuel st3 tto

/-- `autogroup_dives(table, trip_table)`: only when the user enabled
autogrouping; sorts the trip table afterwards. -/
def autogroup_dives (autogroup : Bool) (st : AgState) : AgState :=
  if !autogroup then st
  else
    let st2 := autogroup_loop (st.table.length + 1) st 0
    { st2 with trips := sort_trip_table st2.table st2.trips st2.trips }

/-- `process_loaded_dives`: register nicknames (externally, with no
effect on this state), sort both global tables, then autogroup. -/
def process_loaded_dives (autogroup : Bool) (s : St) : St :=
  let dives := sort_dive_table s.dives s.trips s.dives
  let trips := sort_trip_table dives s.trips s.trips
  let ag := autogroup_dives autogroup { table := dives, trips := trips, next_tid := s.next_tid }
  { s with dives := ag.table, trips := ag.trips, next_tid := ag.next_tid }

/-! ### The import planner (divelist.c:1392-1807) -/

/-- The `IMPORT_*` bit flags of `process_imported_dives`. -/
structure ImportFlags where
  prefer_imported : Bool
  merge_all_trips : Bool
  is_downloaded : Bool
  add_to_new_trip : Bool
deriving Repr, DecidableEq

/-- `merge_imported_dives`: walk adjacent pairs of a sorted import table
and merge them when their intervals overlap or one has zero duration.
`tm` is the external collaborator `try_to_merge`; on success the merged
dive replaces the first of the pair and is immediately reconsidered
against the next dive. -/
def merge_imported_dives (tm : Dive → Dive → Bool → Option Dive) :
    List Dive → List Dive
  | [] => []
  | [d] => [d]
  | prev :: dive :: rest =>
    if prev.duration ≠ 0 ∧ dive.duration ≠ 0 ∧ dive_endtime prev < dive.dwhen then
      prev :: merge_imported_dives tm (dive :: rest)
    else
      match tm prev dive false with
      | none => prev :: merge_imported_dives tm (dive :: rest)
      | some merged => merge_imported_dives tm (merged :: rest)
termination_by l => l.length
decreasing_by all_goals simp

/-- `dive_is_after_last`: the dive ranks after the last dive of the
global dive table (vacuously true for an empty table). -/
def dive_is_after_last (ds : List Dive) (ts : List Trip) (global : List Dive)
    (d : Dive) : Bool :=
  match global.getLast? with
  | none => true
  | some last => dive_less_than ds ts last d

/-- The `while (j < dives_to->nr && dive_less_than(...))` advance of the
two-pointer walk of `merge_dive_tables`. -/
def advance_insertion (ds : List Dive) (ts : List Trip) (dives_to : List Dive)
    (d : Dive) (j : Nat) : Nat :=
  if h : j < dives_to.length then
    if dive_less_than ds ts dives_to[j] d then
      advance_insertion ds ts dives_to d (j + 1)
    else j
  else j
termination_by dives_to.length - j

/-- The end time of the dive at index `k`, 0 out of range. -/
def endtime_at (table : List Dive) (k : Nat) : Int :=
  (table[k]?.map dive_endtime).getD 0

/-- The accumulating outputs of the planner: the import table being
consumed (when the call passes a `delete_from` table), the
`dives_to_add` and `dives_to_remove` output tables, the merged-dive
counter `*num_merged` (= `start_renumbering_at`) and the
`sequence_changed` accumulator. -/
structure MergeAcc where
  import_left : Option (List Dive)
  to_add : List Dive
  to_remove : List Dive
  num_merged : Nat
  seq_changed : Bool
deriving Repr, DecidableEq

/-- `remove_dive(table, dive)`: pointer scan (by id) and removal. -/
def remove_dive_listed (l : List Dive) (d : Dive) : List Dive :=
  match l.findIdx? (fun x => x.id == d.id) with
  | some k => l.eraseIdx k
  | none => l

/-- `try_to_merge_into`: merge the incoming dive into `dives_to[idx]`.
On success the merged dive inherits the old dive's trip, the old dive
goes to `dives_to_remove` and the merged one to `dives_to_add`. -/
def try_to_merge_into (tm : Dive → Dive → Bool → Option Dive)
    (ds : List Dive) (ts : List Trip) (dive_to_add : Dive) (idx : Nat)
    (dives_to : List Dive) (prefer : Bool) (to_add to_remove : List Dive) :
    Option (List Dive × List Dive) :=
  match dives_to[idx]? with
  | none => none
  | some old_dive =>
    match tm old_dive dive_to_add prefer with
    | none => none
    | some m =>
      let merged := { m with divetrip := old_dive.divetrip }
      some (insert_dive ds ts to_add merged, insert_dive ds ts to_remove old_dive)

/-- The main loop of `merge_dive_tables`: a two-pointer walk of the
incoming dives against `dives_to` with insertion index `j` and the
`last_merged_into` watermark `lmi`.  Each incoming dive is first removed
from the `delete_from` table, then merged into the predecessor or
successor at its insertion point if their intervals overlap, and
otherwise placed (with its trip set to `trip`) into `dives_to_add`,
recording whether it changes the existing sequence. -/
def merge_tables_loop (tm : Dive → Dive → Bool → Option Dive)
    (ds : List Dive) (ts : List Trip) (global : List Dive) (prefer : Bool)
    (trip : Option Int) (dives_to : List Dive) :
    List Dive → Nat → Int → MergeAcc → MergeAcc
  | [], _, _, acc => acc
  | d :: rest, j, lmi, acc =>
    let acc1 := { acc with import_left := acc.import_left.map (remove_dive_listed · d) }
    let j2 := advance_insertion ds ts dives_to d j
    let prev_res :=
      if 0 < j2 ∧ (j2 : Int) - 1 > lmi ∧ endtime_at dives_to (j2 - 1) > d.dwhen then
        try_to_merge_into tm ds ts d (j2 - 1) dives_to prefer acc1.to_add acc1.to_remove
      else none
    match prev_res with
    | some (ta, tr) =>
      merge_tables_loop tm ds ts global prefer trip dives_to rest j2 ((j2 : Int) - 1)
        { acc1 with to_add := ta, to_remove := tr, num_merged := acc1.num_merged + 1 }
    | none =>
      let next_res :=
        if j2 < dives_to.length ∧ (j2 : Int) > lmi ∧ dive_endtime d > when_at dives_to j2 then
          try_to_merge_into tm ds ts d j2 dives_to prefer acc1.to_add acc1.to_remove
        else none
      match next_res with
      | some (ta, tr) =>
        merge_tables_loop tm ds ts global prefer trip dives_to rest j2 (j2 : Int)
          { acc1 with to_add := ta, to_remove := tr, num_merged := acc1.num_merged + 1 }
      | none =>
        let idx := dive_insertion_index ds ts d acc1.to_add
        merge_tables_loop tm ds ts global prefer trip dives_to rest j2 lmi
          { acc1 with
            to_add := acc1.to_add.insertIdx idx { d with divetrip := trip },
            seq_changed := acc1.seq_changed || !dive_is_after_last ds ts global d }

/-- `merge_dive_tables(dives_from, delete_from, dives_to, ...)`; the
`delete_from` table rides inside the accumulator. -/
def merge_dive_tables (tm : Dive → Dive → Bool → Option Dive)
    (ds : List Dive) (ts : List Trip) (global : List Dive) (prefer : Bool)
    (trip : Option Int) (dives_from dives_to : List Dive) (acc : MergeAcc) :
    MergeAcc :=
  merge_tables_loop tm ds ts global prefer trip dives_to dives_from 0 (-1) acc

/-- `trips_overlap`: time ranges of two non-empty trips intersect. -/
def trips_overlap (ds : List Dive) (t1 t2 : Trip) : Bool :=
  if t1.dives.length = 0 ∨ t2.dives.length = 0 then false
  else if trip_date ds t1 < trip_date ds t2 then
    trip_enddate ds t1 ≥ trip_date ds t2
  else
    trip_enddate ds t2 ≥ trip_date ds t1

/-- `try_to_merge_trip`: scan the global trip table for the first trip
overlapping the imported trip and consume the imported trip's dives into
it. -/
def try_to_merge_trip (tm : Dive → Dive → Bool → Option Dive)
    (ds : List Dive) (ts : List Trip) (global : List Dive) (prefer : Bool)
    (trip_import : Trip) : List Trip → MergeAcc → Option MergeAcc
  | [], _ => none
  | trip_old :: rest, acc =>
    if trips_overlap ds trip_import trip_old then
      some (merge_dive_tables tm ds ts global prefer (some trip_old.tid)
        (trip_dives_resolved ds trip_import) (trip_dives_resolved ds trip_old) acc)
    else
      try_to_merge_trip tm ds ts global prefer trip_import rest acc

/-- The trip-merging loop of `process_imported_dives`.  The C code
reuses the loop variable `i` for the inner dive loop, so after a
non-merged trip the outer loop resumes from `trip_import->dives.nr + 1`;
the model reproduces this faithfully and runs on fuel (the executions
the claims exercise stay well within it). -/
def import_trips_loop (tm : Dive → Dive → Bool → Option Dive)
    (ds : List Dive) (ts : List Trip) (global : List Dive)
    (global_trips : List Trip) (flags : ImportFlags) (trip_tbl : List Trip) :
    Nat → Nat → MergeAcc → List Trip → MergeAcc × List Trip
  | 0, _, acc, tta => (acc, tta)
  | fuel + 1, i, acc, tta =>
    match trip_tbl[i]? with
    | none => (acc, tta)
    | some trip_import =>
      let merged :=
        if flags.merge_all_trips || trip_import.autogen then
          try_to_merge_trip tm ds ts global flags.prefer_imported trip_import
            global_trips acc
        else none
      match merged with
      | some acc2 =>
        import_trips_loop tm ds ts global global_trips flags trip_tbl fuel (i + 1) acc2 tta
      | none =>
        let resolved := trip_dives_resolved ds trip_import
        let acc2 := resolved.foldl (fun a d =>
          { a with
            to_add := insert_dive ds ts a.to_add d,
            seq_changed := a.seq_changed || !dive_is_after_last ds ts global d,
            import_left := a.import_left.map (remove_dive_listed · d) }) acc
        let idx := trip_insertion_index ds ts trip_import tta
        let tta2 := tta.insertIdx idx { trip_import with dives := [] }
        import_trips_loop tm ds ts global global_trips flags trip_tbl fuel
          (trip_import.dives.length + 1) acc2 tta2

/-- The renumbering loop: `dives[i]->number = ++nr`. -/
def renumber_loop (nr : Int) : List Dive → List Dive
  | [] => []
  | d :: rest => { d with number := nr + 1 } :: renumber_loop (nr + 1) rest

/-- The three output tables of the planner. -/
structure PlanOut where
  to_add : List Dive
  to_remove : List Dive
  trips_to_add : List Trip
deriving Repr, DecidableEq

/-- `process_imported_dives(import_table, import_trip_table, flags, ...)`
over the global state `s`: sort and pre-merge the import table,
autogroup it unless the dives go to a new trip, merge imported trips
into overlapping existing trips, attach the remaining tripless dives to
a fresh trip or merge them into the global table, and finally renumber
the dives added at the end when the sequence is unchanged, none of the
new dives carries a number, and the old last dive's number is at least
the old table size.  Nickname registration (`set_dc_nickname`) has no
effect on this state.  Trip references are resolved in the heap of all
live dives and trips. -/
def process_imported_dives (tm : Dive → Dive → Bool → Option Dive) (s : St)
    (autogroup : Bool) (flags : ImportFlags)
    (import_table : List Dive) (import_trip_table : List Trip) : PlanOut :=
  let new_dive_has_number := import_table.any fun d => d.number > 0
  if import_table.length = 0 then ⟨[], [], []⟩
  else
    let hd0 := s.dives ++ import_table
    let ht0 := s.trips ++ import_trip_table
    let imp1 := sort_dive_table hd0 ht0 import_table
    let imp2 := merge_imported_dives tm imp1
    let ag :=
      if !flags.add_to_new_trip then
        autogroup_dives autogroup
          { table := imp2, trips := import_trip_table, next_tid := s.next_tid }
      else
        { table := imp2, trips := import_trip_table, next_tid := s.next_tid }
    let hd := s.dives ++ ag.table
    let ht := s.trips ++ ag.trips
    let preexisting := s.dives.length
    let acc0 : MergeAcc :=
      { import_left := some ag.table, to_add := [], to_remove := [],
        num_merged := 0, seq_changed := false }
    let looped := import_trips_loop tm hd ht s.dives s.trips flags ag.trips
      (ag.trips.length + 1) 0 acc0 []
    let acc1 := looped.1
    let tta1 := looped.2
    let import_left := acc1.import_left.getD []
    let stage2 : MergeAcc × List Trip :=
      match flags.add_to_new_trip, import_left with
      | true, d0 :: _ =>
        let new_trip := create_trip_from_dive d0 ag.next_tid
        let tta2 := insert_trip hd ht new_trip tta1
        let acc2 := import_left.foldl (fun a d =>
          let d2 := { d with divetrip := some new_trip.tid }
          { a with
            to_add := insert_dive hd ht a.to_add d2,
            seq_changed := a.seq_changed || !dive_is_after_last hd ht s.dives d2 }) acc1
        (acc2, tta2)
      | _, _ =>
        if 0 < import_left.length then
          (merge_dive_tables tm hd ht s.dives flags.prefer_imported none import_left
            s.dives { acc1 with import_left := none }, tta1)
        else (acc1, tta1)
    let acc2 := stage2.1
    let nr : Int := match s.dives.getLast? with | none => 0 | some last => last.number
    let to_add_final :=
      if !acc2.seq_changed ∧ nr ≥ (preexisting : Int) ∧ !new_dive_has_number then
        acc2.to_add.take acc2.num_merged ++
          renumber_loop nr (acc2.to_add.drop acc2.num_merged)
      else acc2.to_add
    ⟨to_add_final, acc2.to_remove, stage2.2⟩

/-! ### Spec-side definitions and concrete example data -/

/-- Spec-side rendering of "the first non-empty of (x, y)": `x` when
non-empty, else `y`; the result is normalized like `copy_string`
(an empty string becomes NULL).  Used to compare `combine_trips` against
the spec's wording. -/
def first_non_empty (x y : Option String) : Option String :=
  if ¬ empty_string x then copy_string x else copy_string y

/-- A cylinder has a usable pressure drop: an end pressure is recorded
and the start pressure exceeds it (the negation of the skip condition of
`calculate_airuse`). -/
def has_pressure_drop (c : Cylinder) : Bool :=
  cyl_end_pressure c ≠ 0 ∧ cyl_end_pressure c < cyl_start_pressure c

/-- Spec-side rendering of "the sum over cylinders of
`gas_volume(cyl, start) - gas_volume(cyl, end)`", ranging over the
cylinders that have a usable pressure drop (millilitres). -/
def airuse_total (gv : Cylinder → Int → Int) (cyls : List Cylinder) : Int :=
  ((cyls.filter has_pressure_drop).map
    (fun c => gv c (cyl_start_pressure c) - gv c (cyl_end_pressure c))).sum

/-- Concrete dive constructor for the example scenarios: id, start time,
number, duration, selected flag; no filter/notrip flags, no trip, no
location. -/
def mkDive (i w num dur : Int) (sel : Bool) : Dive :=
  { id := i, dwhen := w, number := num, duration := dur, selected := sel,
    hidden_by_filter := false, notrip := false, divetrip := none, location := none }

/-- Example state: empty global table except two tripless dives 1000s
apart at the autogroup threshold boundary. -/
def exStBoundary : St :=
  { dives := [mkDive 1 1000 0 1800 false, mkDive 2 (1000 + TRIP_THRESHOLD) 0 1800 false],
    trips := [], amount_selected := 0, current_dive := none, next_tid := 100 }

/-- Example state: as `exStBoundary` but the second dive starts one
second inside the threshold. -/
def exStClose : St :=
  { dives := [mkDive 1 1000 0 1800 false, mkDive 2 (1000 + TRIP_THRESHOLD - 1) 0 1800 false],
    trips := [], amount_selected := 0, current_dive := none, next_tid := 100 }

/-- Example state: two selected dives, the second one current. -/
def exStTwoSel : St :=
  { dives := [mkDive 1 100 0 1800 true, mkDive 2 200 0 1800 true],
    trips := [], amount_selected := 2, current_dive := some 2, next_tid := 0 }

/-- Example state: three selected dives, the middle one current (the
spec's selection-promotion scenario). -/
def exStThreeSel : St :=
  { dives := [mkDive 1 100 0 1800 true, mkDive 2 200 0 1800 true, mkDive 3 300 0 1800 true],
    trips := [], amount_selected := 3, current_dive := some 2, next_tid := 0 }

/-- Example state: a global table of two dives whose last dive carries
the non-zero number 1, smaller than the table size 2. -/
def exStLowNumber : St :=
  { dives := [mkDive 1 100 5 60 false, mkDive 2 200 1 60 false],
    trips := [], amount_selected := 0, current_dive := none, next_tid := 50 }

/-- Example state: a one-dive global table whose dive is numbered 42
(the spec's renumbering scenario). -/
def exStNum42 : St :=
  { dives := [mkDive 1 100 42 60 false],
    trips := [], amount_selected := 0, current_dive := none, next_tid := 50 }

/-- The all-clear import flag set. -/
def exFlags : ImportFlags := ⟨false, false, false, false⟩

/-- A `try_to_merge` collaborator that never merges (a legitimate
instantiation: merging is domain-specific and may always fail). -/
def tmNone : Dive → Dive → Bool → Option Dive := fun _ _ _ => none

/-! ## Theorems -/

/-- `copy_non_empty_string a b` is the spec's "first non-empty" applied
to the arguments in reverse order: it looks at `b` first. -/
theorem copy_non_empty_eq_first (x y : Option String) :
    copy_non_empty_string x y = first_non_empty y x := by
  by_cases h : empty_string y = true <;>
    simp [copy_non_empty_string, first_non_empty, h]

/-- C5 counterexample: `combine_trips` on two trips with the non-empty
locations "X" and "Y" produces location "Y" (the second trip's), not the
claimed first non-empty of (a, b), which would be "X". -/
theorem combine_trips_prefers_b :
    (combine_trips ⟨1, some "X", none, false, []⟩
        ⟨2, some "Y", some "N", false, []⟩ 99).location = some "Y" ∧
    ¬ empty_string (some "X") ∧ ¬ empty_string (some "Y") ∧
    (some "Y" : Option String) ≠ some "X" := by decide

/-- C5 (amended): `combine_trips(a, b)` allocates a new trip whose
location is the first non-empty of `(b.location, a.location)` and whose
notes is the first non-empty of `(b.notes, a.notes)` — the second trip's
field wins when non-empty — and it moves no dives: the new trip's dive
list is empty (and the inputs are untouched). -/
theorem combine_trips_fields (a b : Trip) (ntid : Int) :
    (combine_trips a b ntid).location = first_non_empty b.location a.location ∧
    (combine_trips a b ntid).notes = first_non_empty b.notes a.notes ∧
    (combine_trips a b ntid).dives = [] ∧
    (combine_trips a b ntid).autogen = false := by
  refine ⟨?_, ?_, rfl, rfl⟩ <;>
    simp [combine_trips, alloc_trip, copy_non_empty_eq_first]

/-- A trip tag absent from the table makes the pointer scan miss. -/
theorem get_idx_trip_none (t : Trip) (table : List Trip)
    (h : ∀ u ∈ table, u.tid ≠ t.tid) : get_idx_in_trip_table table t = -1 := by
  induction table with
  | nil => rfl
  | cons x rest ih =>
    have hx : x.tid ≠ t.tid := h x (by simp)
    have hr := ih fun u hu => h u (by simp [hu])
    simp [get_idx_in_trip_table, hx, hr]

/-- A present trip tag is found at a non-negative index, and erasing
that index removes exactly one occurrence of the tag. -/
theorem get_idx_trip_found (t : Trip) (table : List Trip)
    (h : ∃ u ∈ table, u.tid = t.tid) :
    0 ≤ get_idx_in_trip_table table t ∧
    ((table.eraseIdx (get_idx_in_trip_table table t).toNat).map Trip.tid).count t.tid + 1
      = (table.map Trip.tid).count t.tid := by
  induction table with
  | nil => simp at h
  | cons x rest ih =>
    by_cases hx : x.tid = t.tid
    · refine ⟨by simp [get_idx_in_trip_table, hx], ?_⟩
      simp [get_idx_in_trip_table, hx, List.count_cons]
    · obtain ⟨u, hu, hut⟩ := h
      have hur : u ∈ rest := by
        rcases List.mem_cons.mp hu with h1 | h1
        · exact absurd (h1 ▸ hut) hx
        · exact h1
      obtain ⟨ih1, ih2⟩ := ih ⟨u, hur, hut⟩
      have hnn : ¬ get_idx_in_trip_table rest t < 0 := by omega
      have htn : (get_idx_in_trip_table rest t + 1).toNat
          = (get_idx_in_trip_table rest t).toNat + 1 := by omega
      simp only [get_idx_in_trip_table, beq_iff_eq, hx, if_false, hnn]
      refine ⟨by omega, ?_⟩
      rw [htn, List.eraseIdx_cons_succ]
      simp [List.count_cons, hx]
      omega

/-- C9: `unregister_trip` requires an empty dive sub-table: under that
precondition the assertion passes and the trip (when present) is removed
from the trip table; on a trip with a non-empty dive list the assertion
fires (modelled as `none`). -/
theorem unregister_trip_spec (t : Trip) (table : List Trip) :
    (t.dives = [] →
      ∃ tb, unregister_trip t table = some tb ∧
        ((∃ u ∈ table, u.tid = t.tid) →
          (tb.map Trip.tid).count t.tid + 1 = (table.map Trip.tid).count t.tid) ∧
        ((∀ u ∈ table, u.tid ≠ t.tid) → tb = table)) ∧
    (t.dives ≠ [] → unregister_trip t table = none) := by
  constructor
  · intro hdv
    have hlen : t.dives.length = 0 := by simp [hdv]
    refine ⟨if 0 ≤ get_idx_in_trip_table table t then
              table.eraseIdx (get_idx_in_trip_table table t).toNat else table,
            by simp [unregister_trip, hlen], ?_, ?_⟩
    · intro hmem
      obtain ⟨h1, h2⟩ := get_idx_trip_found t table hmem
      simp only [if_pos h1]
      exact h2
    · intro hno
      have := get_idx_trip_none t table hno
      simp [this]
  · intro hdv
    have hlen : t.dives.length ≠ 0 := by simpa [List.length_eq_zero] using hdv
    simp [unregister_trip, hlen]

/-- C9 witness: removing a dive-less trip from a one-trip table yields
the empty table; unregistering a trip that still holds a dive trips the
assertion. -/
theorem unregister_trip_spec_witness :
    (∃ tb, unregister_trip ⟨7, none, none, false, []⟩ [⟨7, some "a", none, false, []⟩]
        = some tb ∧
      ((∃ u ∈ [(⟨7, some "a", none, false, []⟩ : Trip)], u.tid = (7 : Int)) →
        (tb.map Trip.tid).count 7 + 1
          = (([(⟨7, some "a", none, false, []⟩ : Trip)]).map Trip.tid).count 7) ∧
      ((∀ u ∈ [(⟨7, some "a", none, false, []⟩ : Trip)], u.tid ≠ (7 : Int)) →
        tb = [⟨7, some "a", none, false, []⟩])) ∧
    unregister_trip ⟨8, none, none, false, [5]⟩ [] = none :=
  ⟨(unregister_trip_spec ⟨7, none, none, false, []⟩ [⟨7, some "a", none, false, []⟩]).1 rfl,
   (unregister_trip_spec ⟨8, none, none, false, [5]⟩ []).2 (by decide)⟩

/-- C2 counterexample: with autogroup enabled and the two tripless dives
at `when = 1000` and `when = 1000 + TRIP_THRESHOLD`, `process_loaded_dives`
does not leave them tripless: each dive is autogrouped into its own
freshly allocated trip, so the trip table has size 2, not the claimed
0. -/
theorem autogroup_boundary_cex :
    exStBoundary.dives.map Dive.divetrip = [none, none] ∧
    exStBoundary.trips.length = 0 ∧
    (process_loaded_dives true exStBoundary).trips.length = 2 ∧
    (process_loaded_dives true exStBoundary).dives.map Dive.divetrip
      = [some 100, some 101] := by decide

/-- C2 (amended): with autogroup enabled on a table of exactly dives A
(`when = 1000`) and B: when B starts at `1000 + TRIP_THRESHOLD` the two
dives end up in two separate single-dive autogen trips (trip table size
2); when B starts at `1000 + TRIP_THRESHOLD - 1` both dives end up in
one autogen trip (trip table size 1). -/
theorem autogroup_scenarios :
    ((process_loaded_dives true exStBoundary).trips.map (fun t => (t.autogen, t.dives))
        = [(true, [1]), (true, [2])] ∧
     (process_loaded_dives true exStBoundary).trips.length = 2 ∧
     (process_loaded_dives true exStBoundary).dives.map Dive.divetrip
        = [some 100, some 101]) ∧
    ((process_loaded_dives true exStClose).trips.map (fun t => (t.autogen, t.dives))
        = [(true, [1, 2])] ∧
     (process_loaded_dives true exStClose).trips.length = 1 ∧
     (process_loaded_dives true exStClose).dives.map Dive.divetrip
        = [some 100, some 100]) := by decide

/-- For a table with at least two dives, `get_dive_id_closest_to` takes
the general branch. -/
theorem closest_eq_choice (table : List Dive) (w : Int) (h : 2 ≤ table.length) :
    get_dive_id_closest_to table w = id_at table (closest_choice table w) := by
  match table with
  | [] => simp at h
  | [d] => simp at h
  | x :: y :: rest => rfl

/-- The scan skips a whole prefix of dives with `when ≤ w`. -/
theorem closest_scan_append (pre l : List Dive) (w : Int)
    (h : ∀ x ∈ pre, x.dwhen ≤ w) :
    closest_scan (pre ++ l) w = pre.length + closest_scan l w := by
  induction pre with
  | nil => simp
  | cons x rest ih =>
    have hx := h x (by simp)
    have := ih fun b hb => h b (by simp [hb])
    simp [closest_scan, hx, this]
    omega

/-- C10: edge cases of `get_dive_id_closest_to`: an empty table yields
0, a one-dive table yields that dive's id for every timestamp, and a
tie in distance between two neighbouring dives of a sorted table goes
to the later dive. -/
theorem closest_id_edge_cases :
    (∀ w : Int, get_dive_id_closest_to [] w = 0) ∧
    (∀ (d : Dive) (w : Int), get_dive_id_closest_to [d] w = d.id) ∧
    (∀ (pre post : List Dive) (a b : Dive) (w : Int),
      List.Pairwise (fun x y => x.dwhen ≤ y.dwhen) (pre ++ a :: b :: post) →
      a.dwhen ≤ w → w < b.dwhen → w - a.dwhen = b.dwhen - w →
      get_dive_id_closest_to (pre ++ a :: b :: post) w = b.id) := by
  refine ⟨fun w => rfl, fun d w => rfl, ?_⟩
  intro pre post a b w hsort ha hb htie
  have hlen : 2 ≤ (pre ++ a :: b :: post).length := by simp; omega
  rw [closest_eq_choice _ _ hlen]
  have hpre : ∀ x ∈ pre, x.dwhen ≤ w := by
    intro x hx
    have := (List.pairwise_append.mp hsort).2.2 x hx a (by simp)
    omega
  have hscan : closest_scan (pre ++ a :: b :: post) w = pre.length + 1 := by
    rw [closest_scan_append pre _ w hpre]
    simp [closest_scan, ha, not_le.mpr hb]
  have hwa : when_at (pre ++ a :: b :: post) pre.length = a.dwhen := by
    simp [when_at, List.getElem?_append_right (le_refl pre.length)]
  have hwb : when_at (pre ++ a :: b :: post) (pre.length + 1) = b.dwhen := by
    have : pre.length ≤ pre.length + 1 := by omega
    simp [when_at, List.getElem?_append_right this]
  have hid : id_at (pre ++ a :: b :: post) (pre.length + 1) = b.id := by
    have : pre.length ≤ pre.length + 1 := by omega
    simp [id_at, List.getElem?_append_right this]
  have hchoice : closest_choice (pre ++ a :: b :: post) w = pre.length + 1 := by
    simp only [closest_choice, hscan]
    have h1 : ¬ pre.length + 1 = (pre ++ a :: b :: post).length := by simp
    have h2 : pre.length + 1 - 1 = pre.length := by omega
    rw [if_neg h1, if_neg (by omega : ¬ pre.length + 1 = 0), h2, hwa, hwb,
      if_neg (by omega)]
  rw [hchoice, hid]

/-- C10 witness: the edge cases at concrete inputs: empty table, the
one-dive table, and a tie at `w = 200` between dives at 100 and 300. -/
theorem closest_id_edge_cases_witness :
    get_dive_id_closest_to [] 7 = 0 ∧
    get_dive_id_closest_to [mkDive 9 50 0 60 false] 7 = 9 ∧
    get_dive_id_closest_to [mkDive 1 100 0 60 false, mkDive 2 300 0 60 false] 200 = 2 :=
  ⟨closest_id_edge_cases.1 7, closest_id_edge_cases.2.1 (mkDive 9 50 0 60 false) 7,
   closest_id_edge_cases.2.2 [] [] (mkDive 1 100 0 60 false) (mkDive 2 300 0 60 false) 200
     (by decide) (by decide) (by decide) (by decide)⟩

/-- Dives all later than `w` make the backwards scan miss. -/
theorem find_prev_none (table : List Dive) (w : Int)
    (h : ∀ d ∈ table, ¬ d.dwhen < w) : find_prev_dive table w = none := by
  induction table with
  | nil => rfl
  | cons d rest ih =>
    have hr := ih fun e he => h e (by simp [he])
    simp [find_prev_dive, hr, h d (by simp)]

/-- If the backwards scan misses, no dive starts before `w`. -/
theorem find_prev_none_rev (table : List Dive) (w : Int)
    (h : find_prev_dive table w = none) : ∀ d ∈ table, ¬ d.dwhen < w := by
  induction table with
  | nil => simp
  | cons d rest ih =>
    intro e he
    simp only [find_prev_dive] at h
    cases hr : find_prev_dive rest w with
    | some p => rw [hr] at h; exact absurd h (by simp)
    | none =>
      rw [hr] at h
      rcases List.mem_cons.mp he with h1 | h1
      · subst h1
        intro hlt
        rw [if_pos hlt] at h
        exact absurd h (by simp)
      · exact ih hr e h1

/-- The dive found by the backwards scan is in the table and starts
before `w`. -/
theorem find_prev_some (table : List Dive) (w : Int) (p : Dive)
    (h : find_prev_dive table w = some p) : p ∈ table ∧ p.dwhen < w := by
  induction table with
  | nil => exact absurd h (by simp [find_prev_dive])
  | cons d rest ih =>
    simp only [find_prev_dive] at h
    cases hr : find_prev_dive rest w with
    | some q =>
      rw [hr] at h
      obtain ⟨h1, h2⟩ := ih (hr.trans (by injection h with h3; rw [h3]))
      exact ⟨by simp [h1], h2⟩
    | none =>
      rw [hr] at h
      by_cases hd : d.dwhen < w
      · rw [if_pos hd] at h
        injection h with h3
        exact ⟨by simp [h3.symm], h3 ▸ hd⟩
      · rw [if_neg hd] at h
        exact absurd h (by simp)

/-- On a sorted table the backwards scan finds the latest dive that
starts before `w`. -/
theorem find_prev_max (table : List Dive) (w : Int) (p : Dive)
    (hsort : List.Pairwise (fun x y => x.dwhen ≤ y.dwhen) table)
    (h : find_prev_dive table w = some p) :
    ∀ e ∈ table, e.dwhen < w → e.dwhen ≤ p.dwhen := by
  induction table with
  | nil => simp
  | cons d rest ih =>
    intro e he hew
    simp only [find_prev_dive] at h
    cases hr : find_prev_dive rest w with
    | some q =>
      rw [hr] at h
      injection h with h3
      rw [h3] at hr
      rcases List.mem_cons.mp he with h1 | h1
      · subst h1
        exact (List.pairwise_cons.mp hsort).1 p (find_prev_some rest w p hr).1
      · exact ih (List.pairwise_cons.mp hsort).2 hr e h1 hew
    | none =>
      rw [hr] at h
      by_cases hd : d.dwhen < w
      · rw [if_pos hd] at h
        injection h with h3
        subst h3
        rcases List.mem_cons.mp he with h1 | h1
        · rw [h1]
        · exact absurd hew (find_prev_none_rev rest w hr e h1)
      · rw [if_neg hd] at h
        exact absurd h (by simp)

/-- C6: `get_surface_interval(when)` returns -1 when no dive in the
(sorted) global table starts strictly before `when`; otherwise, with
`prev` the latest dive starting strictly before `when`, it returns 0
when `prev`'s end time exceeds `when` and `when - end(prev)`
otherwise. -/
theorem surface_interval_spec (table : List Dive) (w : Int)
    (hsort : List.Pairwise (fun x y => x.dwhen ≤ y.dwhen) table) :
    ((∀ d ∈ table, ¬ d.dwhen < w) → get_surface_interval table w = -1) ∧
    (∀ d0 ∈ table, d0.dwhen < w →
      ∃ prev ∈ table, prev.dwhen < w ∧
        (∀ e ∈ table, e.dwhen < w → e.dwhen ≤ prev.dwhen) ∧
        get_surface_interval table w =
          if dive_endtime prev > w then 0 else w - dive_endtime prev) := by
  constructor
  · intro h
    simp [get_surface_interval, find_prev_none table w h]
  · intro d0 hmem hlt
    cases hp : find_prev_dive table w with
    | none => exact absurd hlt (find_prev_none_rev table w hp d0 hmem)
    | some p =>
      obtain ⟨hpm, hpw⟩ := find_prev_some table w p hp
      exact ⟨p, hpm, hpw, find_prev_max table w p hsort hp,
        by simp [get_surface_interval, hp]⟩

/-- C6 witness: at `w = 5000` over the one-dive table starting at 100
with duration 1800, the previous dive is that dive and the interval is
`5000 - 1900`; the theorem's hypotheses hold by computation. -/
theorem surface_interval_spec_witness :
    ∃ prev ∈ [mkDive 1 100 0 1800 false], prev.dwhen < 5000 ∧
      (∀ e ∈ [mkDive 1 100 0 1800 false], e.dwhen < 5000 → e.dwhen ≤ prev.dwhen) ∧
      get_surface_interval [mkDive 1 100 0 1800 false] 5000 =
        if dive_endtime prev > 5000 then 0 else 5000 - dive_endtime prev :=
  (surface_interval_spec [mkDive 1 100 0 1800 false] 5000 (by decide)).2
    (mkDive 1 100 0 1800 false) (by decide) (by decide)

/-- The scan index never exceeds the table length. -/
theorem closest_scan_le (table : List Dive) (w : Int) :
    closest_scan table w ≤ table.length := by
  induction table with
  | nil => simp [closest_scan]
  | cons d rest ih =>
    by_cases h : d.dwhen ≤ w
    · simp [closest_scan, h]; omega
    · simp [closest_scan, h]

/-- The scan index is monotone in the timestamp. -/
theorem closest_scan_mono (table : List Dive) (w1 w2 : Int) (hw : w1 ≤ w2) :
    closest_scan table w1 ≤ closest_scan table w2 := by
  induction table with
  | nil => simp [closest_scan]
  | cons d rest ih =>
    by_cases h : d.dwhen ≤ w1
    · simp [closest_scan, h, le_trans h hw]
      omega
    · simp [closest_scan, h]

/-- The chosen index lies between `scan - 1` and `scan`. -/
theorem closest_choice_bounds (table : List Dive) (w : Int) :
    closest_scan table w - 1 ≤ closest_choice table w ∧
    closest_choice table w ≤ closest_scan table w := by
  have hle := closest_scan_le table w
  simp only [closest_choice]
  split_ifs <;> omega

/-- The chosen index is in range for a non-empty table. -/
theorem closest_choice_lt (table : List Dive) (w : Int) (h : 0 < table.length) :
    closest_choice table w < table.length := by
  have hle := closest_scan_le table w
  simp only [closest_choice]
  split_ifs <;> omega

/-- The index chosen by `get_dive_id_closest_to` is monotone in the
timestamp over any fixed table. -/
theorem closest_choice_mono (table : List Dive) (w1 w2 : Int) (hw : w1 ≤ w2) :
    closest_choice table w1 ≤ closest_choice table w2 := by
  have hs := closest_scan_mono table w1 w2 hw
  have hb1 := closest_choice_bounds table w1
  have hb2 := closest_choice_bounds table w2
  by_cases heq : closest_scan table w1 = closest_scan table w2
  · simp only [closest_choice, heq] at hb1 hb2 ⊢
    by_cases h1 : closest_scan table w2 = table.length
    · simp [h1]
    · by_cases h2 : closest_scan table w2 = 0
      · simp [h1, h2]
      · rw [if_neg h1, if_neg h2, if_neg h1, if_neg h2]
        by_cases h3 : w1 - when_at table (closest_scan table w2 - 1) <
            when_at table (closest_scan table w2) - w1
        · rw [if_pos h3]
          split_ifs <;> omega
        · rw [if_neg h3, if_neg (by omega)]
  · omega

/-- C7 counterexample: over the sorted two-dive table with ids 5 then 3
(ids need not increase along a when-sorted table),
`get_dive_id_closest_to` is not monotone: it yields 5 at `w = 100` and 3
at `w = 200`. -/
theorem closest_id_not_monotone :
    List.Pairwise (fun x y => x.dwhen ≤ y.dwhen)
      [mkDive 5 100 0 60 false, mkDive 3 200 0 60 false] ∧
    (100 : Int) ≤ 200 ∧
    get_dive_id_closest_to [mkDive 5 100 0 60 false, mkDive 3 200 0 60 false] 100 = 5 ∧
    get_dive_id_closest_to [mkDive 5 100 0 60 false, mkDive 3 200 0 60 false] 200 = 3 ∧
    ¬ (5 : Int) ≤ 3 := by decide

/-- C7 (amended): over a fixed, sorted table the *index* of the dive
returned by `get_dive_id_closest_to` is monotonically non-decreasing in
the timestamp; consequently the returned id is non-decreasing whenever
the ids appear in non-decreasing order along the table. -/
theorem closest_id_monotone (table : List Dive) (w1 w2 : Int) (hw : w1 ≤ w2)
    (hsort : List.Pairwise (fun x y => x.dwhen ≤ y.dwhen) table)
    (hids : List.Pairwise (fun x y => x.id ≤ y.id) table) :
    closest_choice table w1 ≤ closest_choice table w2 ∧
    get_dive_id_closest_to table w1 ≤ get_dive_id_closest_to table w2 := by
  refine ⟨closest_choice_mono table w1 w2 hw, ?_⟩
  match table with
  | [] => simp [get_dive_id_closest_to]
  | [d] => simp [get_dive_id_closest_to]
  | x :: y :: rest =>
    have hlen : 2 ≤ (x :: y :: rest).length := by simp
    rw [closest_eq_choice _ w1 hlen, closest_eq_choice _ w2 hlen]
    have hmono := closest_choice_mono (x :: y :: rest) w1 w2 hw
    have hlt1 := closest_choice_lt (x :: y :: rest) w1 (by simp)
    have hlt2 := closest_choice_lt (x :: y :: rest) w2 (by simp)
    rcases Nat.lt_or_ge (closest_choice (x :: y :: rest) w1)
        (closest_choice (x :: y :: rest) w2) with hc | hc
    · rw [List.pairwise_iff_getElem] at hids
      have := hids _ _ hlt1 hlt2 hc
      simp only [id_at, List.getElem?_eq_getElem hlt1, List.getElem?_eq_getElem hlt2,
        Option.map_some, Option.getD_some]
      exact this
    · have : closest_choice (x :: y :: rest) w1 = closest_choice (x :: y :: rest) w2 := by
        omega
      rw [this]

/-- C7 witness: at the two-dive table with increasing ids the index and
id are both non-decreasing between `w = 100` and `w = 200`. -/
theorem closest_id_monotone_witness :
    closest_choice [mkDive 1 100 0 60 false, mkDive 2 300 0 60 false] 100 ≤
      closest_choice [mkDive 1 100 0 60 false, mkDive 2 300 0 60 false] 200 ∧
    get_dive_id_closest_to [mkDive 1 100 0 60 false, mkDive 2 300 0 60 false] 100 ≤
      get_dive_id_closest_to [mkDive 1 100 0 60 false, mkDive 2 300 0 60 false] 200 :=
  closest_id_monotone [mkDive 1 100 0 60 false, mkDive 2 300 0 60 false] 100 200
    (by decide) (by decide) (by decide)

/-- A used cylinder without a usable pressure drop anywhere in the list
makes the cylinder loop bail out. -/
theorem airuse_loop_none (gv : Cylinder → Int → Int) (used : Nat → Bool)
    (cyls : List Cylinder) (i : Nat)
    (h : ∃ k c, cyls[k]? = some c ∧ used (i + k) = true ∧
      (cyl_end_pressure c = 0 ∨ cyl_start_pressure c ≤ cyl_end_pressure c)) :
    airuse_loop gv used cyls i = none := by
  induction cyls generalizing i with
  | nil =>
    obtain ⟨k, c, hk, _⟩ := h
    simp at hk
  | cons cyl rest ih =>
    obtain ⟨k, c, hk, hu, hbad⟩ := h
    cases k with
    | zero =>
      simp at hk
      subst hk
      simp only [Nat.add_zero] at hu
      simp [airuse_loop, hbad, hu]
    | succ k =>
      have hr := ih (i + 1)
        ⟨k, c, by simpa using hk, by rw [show i + 1 + k = i + (k + 1) by omega]; exact hu, hbad⟩
      simp only [airuse_loop]
      split_ifs <;> simp [hr]

/-- When every used cylinder has a usable pressure drop the loop sums
exactly the drops of the usable cylinders. -/
theorem airuse_loop_total (gv : Cylinder → Int → Int) (used : Nat → Bool)
    (cyls : List Cylinder) (i : Nat)
    (h : ∀ k c, cyls[k]? = some c → used (i + k) = true →
      cyl_end_pressure c ≠ 0 ∧ cyl_end_pressure c < cyl_start_pressure c) :
    airuse_loop gv used cyls i = some (airuse_total gv cyls) := by
  induction cyls generalizing i with
  | nil => simp [airuse_loop, airuse_total]
  | cons cyl rest ih =>
    have hr := ih (i + 1) fun k c hk hu =>
      h (k + 1) c (by simpa using hk) (by rw [show i + (k + 1) = i + 1 + k by omega]; exact hu)
    by_cases hbad : cyl_end_pressure cyl = 0 ∨ cyl_start_pressure cyl ≤ cyl_end_pressure cyl
    · have hnu : used i = false := by
        cases hu : used i with
        | false => rfl
        | true =>
          have := h 0 cyl (by simp) (by simpa using hu)
          omega
      have hps : has_pressure_drop cyl = false := by
        simp only [has_pressure_drop, Bool.decide_and]
        rcases hbad with h1 | h1 <;> simp [h1]
      simp [airuse_loop, hbad, hnu, hr, airuse_total, List.filter, hps]
    · have hps : has_pressure_drop cyl = true := by
        push_neg at hbad
        simp only [has_pressure_drop, Bool.decide_and]
        simp [hbad.1]
        omega
      simp [airuse_loop, hbad, hr, airuse_total, List.filter, hps]

/-- C8: if some cylinder is used but has no usable pressure drop (no end
pressure, or start not above end), `calculate_airuse` returns 0 and
`calculate_sac` returns 0; otherwise `calculate_airuse` is the sum over
the cylinders with a usable drop of `gas_volume(cyl, start) -
gas_volume(cyl, end)` (in litres). -/
theorem airuse_sac_spec (gv : Cylinder → Int → Int) (used : Nat → Bool)
    (datm : Int → ℚ) (lri : ℚ → Int) (cyls : List Cylinder)
    (duration meandepth : Int) :
    ((∃ k c, cyls[k]? = some c ∧ used k = true ∧
        (cyl_end_pressure c = 0 ∨ cyl_start_pressure c ≤ cyl_end_pressure c)) →
      calculate_airuse gv used cyls = 0 ∧
      calculate_sac gv used datm lri cyls duration meandepth = 0) ∧
    ((∀ k c, cyls[k]? = some c → used k = true →
        cyl_end_pressure c ≠ 0 ∧ cyl_end_pressure c < cyl_start_pressure c) →
      calculate_airuse gv used cyls = (airuse_total gv cyls : ℚ) / 1000) := by
  constructor
  · intro h
    obtain ⟨k, c, hk, hu, hbad⟩ := h
    have hn := airuse_loop_none gv used cyls 0 ⟨k, c, hk, by simpa using hu, hbad⟩
    refine ⟨by simp [calculate_airuse, hn], ?_⟩
    simp [calculate_sac, calculate_airuse, hn]
  · intro h
    have ht := airuse_loop_total gv used cyls 0 fun k c hk hu =>
      h k c hk (by simpa using hu)
    simp [calculate_airuse, ht]

/-- C8 witness: with `gas_volume` the identity in pressure and every
cylinder used, a lone cylinder lacking an end pressure forces airuse 0
and SAC 0, while a lone cylinder with drop 2000→1000 mbar yields the sum
of drops over usable cylinders. -/
theorem airuse_sac_spec_witness :
    (calculate_airuse (fun _ p => p) (fun _ => true) [⟨1000, 0, 0, 0⟩] = 0 ∧
     calculate_sac (fun _ p => p) (fun _ => true) (fun _ => 1) (fun _ => 0)
        [⟨1000, 0, 0, 0⟩] 600 5000 = 0) ∧
    calculate_airuse (fun _ p => p) (fun _ => true) [⟨2000, 1000, 0, 0⟩]
      = (airuse_total (fun _ p => p) [⟨2000, 1000, 0, 0⟩] : ℚ) / 1000 :=
  ⟨(airuse_sac_spec (fun _ p => p) (fun _ => true) (fun _ => 1) (fun _ => 0)
      [⟨1000, 0, 0, 0⟩] 600 5000).1 ⟨0, ⟨1000, 0, 0, 0⟩, rfl, rfl, by decide⟩,
   (airuse_sac_spec (fun _ p => p) (fun _ => true) (fun _ => 1) (fun _ => 0)
      [⟨2000, 1000, 0, 0⟩] 600 5000).2 (by
        intro k c hk hu
        match k with
        | 0 =>
          have hc : c = ⟨2000, 1000, 0, 0⟩ := by
            simpa using hk.symm
          subst hc
          exact ⟨by decide, by decide⟩
        | k + 1 => simp at hk)⟩

/-- The unsigned decrement is an exact decrement below the wrap. -/
theorem dec32_eq (n : Nat) (h1 : 1 ≤ n) (h2 : n < 2 ^ 32) : dec32 n = n - 1 := by
  unfold dec32
  have : n + (2 ^ 32 - 1) = (n - 1) + 1 * 2 ^ 32 := by omega
  rw [this, Nat.add_mul_mod_self_right]
  exact Nat.mod_eq_of_lt (by omega)

/-- The unsigned increment is an exact increment below the wrap. -/
theorem inc32_eq (n : Nat) (h : n + 1 < 2 ^ 32) : inc32 n = n + 1 :=
  Nat.mod_eq_of_lt h

/-- The selected count never exceeds the table length. -/
theorem count_selected_le (tbl : List Dive) : count_selected tbl ≤ tbl.length :=
  List.length_filter_le _ tbl

/-- A selected entry makes the count positive. -/
theorem count_selected_pos (tbl : List Dive) (i : Nat) (d : Dive)
    (h : tbl[i]? = some d) (hs : d.selected = true) : 1 ≤ count_selected tbl := by
  have hm : d ∈ tbl := List.getElem?_mem h
  have : d ∈ tbl.filter (·.selected) := List.mem_filter.mpr ⟨hm, by simp [hs]⟩
  have := List.length_pos.mpr (List.ne_nil_of_mem this)
  simpa [count_selected] using this

/-- Replacing the entry at a valid index trades its selected bit for the
new one in the count. -/
theorem count_selected_set (tbl : List Dive) (i : Nat) (d e : Dive)
    (h : tbl[i]? = some d) :
    count_selected (tbl.set i e) + (if d.selected then 1 else 0)
      = count_selected tbl + (if e.selected then 1 else 0) := by
  induction tbl generalizing i with
  | nil => simp at h
  | cons x rest ih =>
    cases i with
    | zero =>
      have hxd : x = d := by simpa using h
      subst hxd
      rw [List.set_cons_zero]
      by_cases hd : x.selected <;> by_cases he : e.selected <;>
        simp [count_selected, List.filter, hd, he]
    | succ k =>
      simp only [List.getElem?_cons_succ] at h
      have ih2 := ih k h
      rw [List.set_cons_succ]
      by_cases hx : x.selected
      · simp only [count_selected, List.filter, hx] at ih2 ⊢
        simp only [List.length_cons]
        omega
      · simp only [count_selected, List.filter, hx] at ih2 ⊢
        exact ih2

/-- Erasing the entry at a valid index removes its selected bit from the
count. -/
theorem count_selected_eraseIdx (tbl : List Dive) (i : Nat) (d : Dive)
    (h : tbl[i]? = some d) :
    count_selected (tbl.eraseIdx i) + (if d.selected then 1 else 0)
      = count_selected tbl := by
  induction tbl generalizing i with
  | nil => simp at h
  | cons x rest ih =>
    cases i with
    | zero =>
      have hxd : x = d := by simpa using h
      subst hxd
      rw [List.eraseIdx_cons_zero]
      by_cases hd : x.selected <;> simp [count_selected, List.filter, hd]
    | succ k =>
      simp only [List.getElem?_cons_succ] at h
      have ih2 := ih k h
      rw [List.eraseIdx_cons_succ]
      by_cases hx : x.selected
      · simp only [count_selected, List.filter, hx] at ih2 ⊢
        simp only [List.length_cons]
        omega
      · simp only [count_selected, List.filter, hx] at ih2 ⊢
        exact ih2

/-- Inserting at an index within range adds the new entry's selected bit
to the count. -/
theorem count_selected_insertIdx (tbl : List Dive) (idx : Nat) (d : Dive)
    (h : idx ≤ tbl.length) :
    count_selected (tbl.insertIdx idx d)
      = count_selected tbl + (if d.selected then 1 else 0) := by
  induction tbl generalizing idx with
  | nil =>
    have h0 : idx = 0 := by simpa using h
    subst h0
    by_cases hd : d.selected <;>
      simp [count_selected, List.filter, hd, List.insertIdx_zero]
  | cons x rest ih =>
    cases idx with
    | zero =>
      rw [List.insertIdx_zero]
      by_cases hd : d.selected <;> by_cases hx : x.selected <;>
        simp [count_selected, List.filter, hd, hx]
    | succ k =>
      have hk : k ≤ rest.length := by simpa using h
      have ih2 := ih k hk
      rw [List.insertIdx_succ_cons]
      by_cases hx : x.selected
      · simp only [count_selected, List.filter, hx] at ih2 ⊢
        simp only [List.length_cons]
        omega
      · simp only [count_selected, List.filter, hx] at ih2 ⊢
        exact ih2

/-- With pairwise distinct ids, the id scan finds an entry exactly at
its index. -/
theorem get_divenr_eq (tbl : List Dive) (i : Nat) (e : Dive)
    (h : tbl[i]? = some e)
    (hp : List.Pairwise (fun x y => x.id ≠ y.id) tbl) :
    get_divenr tbl e.id = (i : Int) := by
  induction tbl generalizing i with
  | nil => simp at h
  | cons x rest ih =>
    cases i with
    | zero =>
      have hxe : x = e := by simpa using h
      subst hxe
      simp [get_divenr]
    | succ k =>
      simp only [List.getElem?_cons_succ] at h
      have hmem : e ∈ rest := List.getElem?_mem h
      have hxe : x.id ≠ e.id := (List.pairwise_cons.mp hp).1 e hmem
      have ihr := ih k h (List.pairwise_cons.mp hp).2
      have hge : ¬ get_divenr rest e.id < 0 := by rw [ihr]; omega
      simp only [get_divenr, beq_iff_eq, hxe, if_false, ihr, hge]
      omega

/-- Setting an index to a dive with the same id keeps the ids pairwise
distinct. -/
theorem pairwise_ids_set (tbl : List Dive) (i : Nat) (d e : Dive)
    (h : tbl[i]? = some d) (hid : e.id = d.id)
    (hp : List.Pairwise (fun x y => x.id ≠ y.id) tbl) :
    List.Pairwise (fun x y => x.id ≠ y.id) (tbl.set i e) := by
  induction tbl generalizing i with
  | nil => simp
  | cons x rest ih =>
    cases i with
    | zero =>
      have hxd : x = d := by simpa using h
      subst hxd
      rw [List.set_cons_zero]
      rw [List.pairwise_cons] at hp ⊢
      exact ⟨fun y hy => hid ▸ hp.1 y hy, hp.2⟩
    | succ k =>
      simp only [List.getElem?_cons_succ] at h
      rw [List.set_cons_succ]
      rw [List.pairwise_cons] at hp ⊢
      refine ⟨?_, ih k h hp.2⟩
      intro y hy
      rcases List.mem_or_eq_of_mem_set hy with h1 | h1
      · exact hp.1 y h1
      · have hd : d ∈ rest := List.getElem?_mem h
        rw [h1, hid]
        exact hp.1 d hd

/-- A missed backwards scan means no selected dive below `k`. -/
theorem scan_back_none (tbl : List Dive) (k : Nat)
    (h : scan_back tbl k = none) :
    ∀ j, j < k → ∀ e, tbl[j]? = some e → e.selected = false := by
  induction k with
  | zero => intro j hj; omega
  | succ m ih =>
    intro j hj e he
    simp only [scan_back] at h
    cases hm : tbl[m]? with
    | some dm =>
      simp only [hm] at h
      by_cases hs : dm.selected
      · rw [if_pos hs] at h
        exact absurd h (by simp)
      · rw [if_neg hs] at h
        by_cases hjm : j = m
        · subst hjm
          rw [hm] at he
          injection he with h2
          rw [← h2]
          simpa using hs
        · exact ih h j (by omega) e he
    | none =>
      simp only [hm] at h
      by_cases hjm : j = m
      · subst hjm
        rw [hm] at he
        exact absurd he (by simp)
      · exact ih h j (by omega) e he

/-- A successful backwards scan returns the nearest selected dive below
`k`. -/
theorem scan_back_found (tbl : List Dive) (k : Nat) (e : Dive)
    (h : scan_back tbl k = some e) :
    ∃ j, j < k ∧ tbl[j]? = some e ∧ e.selected = true ∧
      ∀ m em, j < m → m < k → tbl[m]? = some em → em.selected = false := by
  induction k with
  | zero => simp [scan_back] at h
  | succ n ih =>
    simp only [scan_back] at h
    cases hm : tbl[n]? with
    | some dm =>
      simp only [hm] at h
      by_cases hs : dm.selected
      · rw [if_pos hs] at h
        injection h with h2
        subst h2
        exact ⟨n, by omega, hm, hs, fun m em h1 h2 _ => by omega⟩
      · rw [if_neg hs] at h
        obtain ⟨j, hj, hje, hsel, hbet⟩ := ih h
        refine ⟨j, by omega, hje, hsel, ?_⟩
        intro m em h1 h2 hme
        by_cases hmn : m = n
        · subst hmn
          rw [hm] at hme
          injection hme with h3
          rw [← h3]
          simpa using hs
        · exact hbet m em h1 (by omega) hme
    | none =>
      simp only [hm] at h
      obtain ⟨j, hj, hje, hsel, hbet⟩ := ih h
      refine ⟨j, by omega, hje, hsel, ?_⟩
      intro m em h1 h2 hme
      by_cases hmn : m = n
      · subst hmn
        rw [hm] at hme
        exact absurd hme (by simp)
      · exact hbet m em h1 (by omega) hme

/-- A missed forwards scan means no selected dive at or above `k`. -/
theorem scan_fwd_none (tbl : List Dive) : ∀ (fuel k : Nat), tbl.length - k = fuel →
    scan_fwd tbl k = none →
    ∀ j, k ≤ j → ∀ e, tbl[j]? = some e → e.selected = false := by
  intro fuel
  induction fuel with
  | zero =>
    intro k hf h j hj e he
    have hlen : tbl.length ≤ j := by omega
    rw [List.getElem?_eq_none hlen] at he
    exact absurd he (by simp)
  | succ m ih =>
    intro k hf h j hj e he
    by_cases hk : k < tbl.length
    · unfold scan_fwd at h
      rw [dif_pos hk] at h
      by_cases hs : tbl[k].selected
      · rw [if_pos hs] at h
        exact absurd h (by simp)
      · rw [if_neg hs] at h
        by_cases hjk : j = k
        · subst hjk
          rw [List.getElem?_eq_getElem hk] at he
          injection he with h2
          rw [← h2]
          simpa using hs
        · exact ih (k + 1) (by omega) h j (by omega) e he
    · have hlen : tbl.length ≤ j := by omega
      rw [List.getElem?_eq_none hlen] at he
      exact absurd he (by simp)

/-- A successful forwards scan returns the nearest selected dive at or
above `k`. -/
theorem scan_fwd_found (tbl : List Dive) : ∀ (fuel k : Nat), tbl.length - k = fuel →
    ∀ e, scan_fwd tbl k = some e →
    ∃ j, k ≤ j ∧ tbl[j]? = some e ∧ e.selected = true ∧
      ∀ m em, k ≤ m → m < j → tbl[m]? = some em → em.selected = false := by
  intro fuel
  induction fuel with
  | zero =>
    intro k hf e h
    have hk : ¬ k < tbl.length := by omega
    unfold scan_fwd at h
    rw [dif_neg hk] at h
    exact absurd h (by simp)
  | succ m ih =>
    intro k hf e h
    by_cases hk : k < tbl.length
    · unfold scan_fwd at h
      rw [dif_pos hk] at h
      by_cases hs : tbl[k].selected
      · rw [if_pos hs] at h
        injection h with h2
        refine ⟨k, le_refl k, ?_, ?_, fun m2 em h1 h2 _ => by omega⟩
        · rw [List.getElem?_eq_getElem hk, h2]
        · rw [← h2]
          exact hs
      · rw [if_neg hs] at h
        obtain ⟨j, hj, hje, hsel, hbet⟩ := ih (k + 1) (by omega) e h
        refine ⟨j, by omega, hje, hsel, ?_⟩
        intro m2 em h1 h2 hme
        by_cases hmk : m2 = k
        · subst hmk
          rw [List.getElem?_eq_getElem hk] at hme
          injection hme with h3
          rw [← h3]
          simpa using hs
        · exact hbet m2 em (by omega) h2 hme
    · unfold scan_fwd at h
      rw [dif_neg hk] at h
      exact absurd h (by simp)

/-- No selected dive below `k` makes the backwards scan miss. -/
theorem scan_back_none_of (tbl : List Dive) (k : Nat)
    (h : ∀ j, j < k → ∀ e, tbl[j]? = some e → e.selected = false) :
    scan_back tbl k = none := by
  induction k with
  | zero => rfl
  | succ m ih =>
    simp only [scan_back]
    cases hm : tbl[m]? with
    | some dm =>
      have hs := h m (by omega) dm hm
      simp only [hs, Bool.false_eq_true, if_false]
      exact ih fun j hj e he => h j (by omega) e he
    | none => exact ih fun j hj e he => h j (by omega) e he

/-- No selected dive at or above `k` makes the forwards scan miss. -/
theorem scan_fwd_none_of (tbl : List Dive) : ∀ (fuel k : Nat), tbl.length - k = fuel →
    (∀ j, k ≤ j → ∀ e, tbl[j]? = some e → e.selected = false) →
    scan_fwd tbl k = none := by
  intro fuel
  induction fuel with
  | zero =>
    intro k hf h
    unfold scan_fwd
    rw [dif_neg (by omega)]
  | succ m ih =>
    intro k hf h
    by_cases hk : k < tbl.length
    · unfold scan_fwd
      rw [dif_pos hk]
      have hs : tbl[k].selected = false :=
        h k (le_refl k) tbl[k] (List.getElem?_eq_getElem hk)
      rw [if_neg (by simp [hs])]
      exact ih (k + 1) (by omega) fun j hj e he => h j (by omega) e he
    · unfold scan_fwd
      rw [dif_neg hk]

/-- The branch structure of `deselect_dive` on a selected dive at a
valid index: the flag is cleared, the counter guard-decremented, and the
new current dive is the result of the two promotion scans (or NULL). -/
theorem deselect_dive_unfold (s : St) (i : Nat) (d : Dive)
    (hd : s.dives[i]? = some d) (hsel : d.selected = true) :
    deselect_dive s i =
      { s with
        dives := s.dives.set i { d with selected := false },
        amount_selected :=
          if s.amount_selected ≠ 0 then dec32 s.amount_selected else s.amount_selected,
        current_dive :=
          if s.current_dive = some d.id ∧
              0 < (if s.amount_selected ≠ 0 then dec32 s.amount_selected
                   else s.amount_selected) then
            match scan_back (s.dives.set i { d with selected := false })
                (get_divenr (s.dives.set i { d with selected := false }) d.id).toNat with
            | some d2 => some d2.id
            | none =>
              match scan_fwd (s.dives.set i { d with selected := false })
                  ((get_divenr (s.dives.set i { d with selected := false }) d.id) + 1).toNat with
              | some d2 => some d2.id
              | none => none
          else none } := by
  simp only [deselect_dive, hd, hsel, if_true]
  split_ifs
  all_goals cases scan_back (s.dives.set i { d with selected := false }) (get_divenr (s.dives.set i { d with selected := false }) d.id).toNat <;> cases scan_fwd (s.dives.set i { d with selected := false }) ((get_divenr (s.dives.set i { d with selected := false }) d.id) + 1).toNat <;> rfl

/-- C3 counterexample: deselecting a selected dive that is not the
current dive does not leave `current_dive` unchanged: the code resets it
to NULL.  In `exStTwoSel` the current dive has id 2; deselecting the
dive at index 0 (id 1) clears `current_dive`. -/
theorem deselect_noncurrent_cex :
    exStTwoSel.current_dive = some 2 ∧
    (exStTwoSel.dives.map Dive.id)[0]? = some 1 ∧
    (deselect_dive exStTwoSel 0).amount_selected = 1 ∧
    (deselect_dive exStTwoSel 0).current_dive = none ∧
    (deselect_dive exStTwoSel 0).current_dive ≠ exStTwoSel.current_dive := by decide

/-- C3 (amended): `deselect_dive` on a selected dive clears its flag and
decrements `amount_selected`; if the deselected dive was `current_dive`
it promotes the nearest remaining selected dive — scanning backwards
through the table first, then forwards — or sets `current_dive` to NULL
when no selected dive remains; if the deselected dive was *not* the
current dive, `current_dive` is likewise reset to NULL (not left
unchanged, as originally claimed). -/
theorem deselect_dive_spec (s : St) (i : Nat) (d : Dive)
    (hd : s.dives[i]? = some d) (hsel : d.selected = true)
    (hids : List.Pairwise (fun x y => x.id ≠ y.id) s.dives)
    (hinv : sel_inv s) (hlen : s.dives.length < 2 ^ 32) :
    (deselect_dive s i).dives = s.dives.set i { d with selected := false } ∧
    (deselect_dive s i).amount_selected + 1 = s.amount_selected ∧
    (s.current_dive ≠ some d.id → (deselect_dive s i).current_dive = none) ∧
    (s.current_dive = some d.id →
      ((∀ j e, j ≠ i → s.dives[j]? = some e → e.selected = false) →
        (deselect_dive s i).current_dive = none) ∧
      (∀ jb eb, jb < i → s.dives[jb]? = some eb → eb.selected = true →
        ∃ j2 e2, j2 < i ∧ s.dives[j2]? = some e2 ∧ e2.selected = true ∧
          (∀ m em, j2 < m → m < i → s.dives[m]? = some em → em.selected = false) ∧
          (deselect_dive s i).current_dive = some e2.id) ∧
      ((∀ jb eb, jb < i → s.dives[jb]? = some eb → eb.selected = false) →
        ∀ jf ef, i < jf → s.dives[jf]? = some ef → ef.selected = true →
        ∃ j2 e2, i < j2 ∧ s.dives[j2]? = some e2 ∧ e2.selected = true ∧
          (∀ m em, i < m → m < j2 → s.dives[m]? = some em → em.selected = false) ∧
          (deselect_dive s i).current_dive = some e2.id)) := by
  have hinv2 : s.amount_selected = count_selected s.dives := hinv
  have hlt : i < s.dives.length := (List.getElem?_eq_some.mp hd).1
  have hcnt : 1 ≤ count_selected s.dives := count_selected_pos s.dives i d hd hsel
  have hcle : count_selected s.dives ≤ s.dives.length := count_selected_le s.dives
  have hne : s.amount_selected ≠ 0 := by omega
  have hamo : (if s.amount_selected ≠ 0 then dec32 s.amount_selected
      else s.amount_selected) = s.amount_selected - 1 := by
    rw [if_pos hne, dec32_eq _ (by omega) (by omega)]
  have htbl_i : (s.dives.set i { d with selected := false })[i]? =
      some { d with selected := false } := by
    simp [List.getElem?_set_self, hlt]
  have htbl_len : (s.dives.set i { d with selected := false }).length
      = s.dives.length := by simp
  have htbl_ne : ∀ j, j ≠ i → (s.dives.set i { d with selected := false })[j]? =
      s.dives[j]? := fun j hj => List.getElem?_set_ne (Ne.symm hj)
  have hsd_of : ∀ j e, j ≠ i →
      (s.dives.set i { d with selected := false })[j]? = some e →
      s.dives[j]? = some e := by
    intro j e hj he
    rw [← htbl_ne j hj]
    exact he
  have htbl_of : ∀ j e, j ≠ i → s.dives[j]? = some e →
      (s.dives.set i { d with selected := false })[j]? = some e := by
    intro j e hj he
    rw [htbl_ne j hj]
    exact he
  have hcnt_tbl : count_selected (s.dives.set i { d with selected := false }) + 1
      = count_selected s.dives := by
    have := count_selected_set s.dives i d { d with selected := false } hd
    simpa [hsel] using this
  have hppw : List.Pairwise (fun x y => x.id ≠ y.id)
      (s.dives.set i { d with selected := false }) :=
    pairwise_ids_set s.dives i d { d with selected := false } hd rfl hids
  have hidx : get_divenr (s.dives.set i { d with selected := false }) d.id
      = (i : Int) := get_divenr_eq _ i { d with selected := false } htbl_i hppw
  rw [deselect_dive_unfold s i d hd hsel]
  refine ⟨rfl, ?_, ?_, ?_⟩
  · show (if s.amount_selected ≠ 0 then dec32 s.amount_selected
        else s.amount_selected) + 1 = s.amount_selected
    rw [hamo]
    omega
  · intro hcur
    show (if _ ∧ _ then _ else none) = none
    rw [if_neg]
    intro hc
    exact hcur hc.1
  · intro hcur
    have htoNat : ((i : Int)).toNat = i := by simp
    have htoNat1 : ((i : Int) + 1).toNat = i + 1 := by omega
    refine ⟨?_, ?_, ?_⟩
    · -- no other selected dive: both scans miss, current becomes NULL
      intro hall
      have hall_tbl : ∀ (j : Nat) (e : Dive),
          (s.dives.set i { d with selected := false })[j]? = some e →
          e.selected = false := by
        intro j e he
        by_cases hj : j = i
        · subst hj
          rw [htbl_i] at he
          injection he with h2
          rw [← h2]
        · exact hall j e hj (hsd_of j e hj he)
      have hsb : scan_back (s.dives.set i { d with selected := false }) i = none :=
        scan_back_none_of _ i fun j _ e he => hall_tbl j e he
      have hsf : scan_fwd (s.dives.set i { d with selected := false }) (i + 1) = none :=
        scan_fwd_none_of _ _ (i + 1) rfl fun j _ e he => hall_tbl j e he
      show (if _ ∧ _ then _ else none) = none
      split_ifs with hc
      · rw [hidx, htoNat, htoNat1, hsb, hsf]
      · rfl
    · -- backwards promotion
      intro jb eb hjb hjbe hjbsel
      have hjbne : jb ≠ i := by omega
      have htbl_jb : (s.dives.set i { d with selected := false })[jb]? = some eb :=
        htbl_of jb eb hjbne hjbe
      have hpos : 1 ≤ count_selected (s.dives.set i { d with selected := false }) :=
        count_selected_pos _ jb eb htbl_jb hjbsel
      have hcond : s.current_dive = some d.id ∧
          0 < (if s.amount_selected ≠ 0 then dec32 s.amount_selected
               else s.amount_selected) := ⟨hcur, by rw [hamo]; omega⟩
      cases hsb : scan_back (s.dives.set i { d with selected := false }) i with
      | none =>
        have := scan_back_none _ i hsb jb hjb eb htbl_jb
        rw [hjbsel] at this
        exact absurd this (by simp)
      | some e2 =>
        obtain ⟨j2, hj2, hje2, hsel2, hbet⟩ := scan_back_found _ i e2 hsb
        refine ⟨j2, e2, hj2, hsd_of j2 e2 (by omega) hje2, hsel2, ?_, ?_⟩
        · intro m em h1 h2 hme
          exact hbet m em h1 h2 (htbl_of m em (by omega) hme)
        · show (if _ ∧ _ then _ else none) = some e2.id
          rw [if_pos hcond, hidx, htoNat, hsb]
    · -- forwards promotion
      intro hallb jf ef hjf hjfe hjfsel
      have hjfne : jf ≠ i := by omega
      have htbl_jf : (s.dives.set i { d with selected := false })[jf]? = some ef :=
        htbl_of jf ef hjfne hjfe
      have hpos : 1 ≤ count_selected (s.dives.set i { d with selected := false }) :=
        count_selected_pos _ jf ef htbl_jf hjfsel
      have hcond : s.current_dive = some d.id ∧
          0 < (if s.amount_selected ≠ 0 then dec32 s.amount_selected
               else s.amount_selected) := ⟨hcur, by rw [hamo]; omega⟩
      have hsb : scan_back (s.dives.set i { d with selected := false }) i = none := by
        apply scan_back_none_of
        intro j hj e he
        by_cases hji : j = i
        · omega
        · exact hallb j e hj (hsd_of j e hji he)
      cases hsf : scan_fwd (s.dives.set i { d with selected := false }) (i + 1) with
      | none =>
        have := scan_fwd_none _ _ (i + 1) rfl hsf jf (by omega) ef htbl_jf
        rw [hjfsel] at this
        exact absurd this (by simp)
      | some e2 =>
        obtain ⟨j2, hj2, hje2, hsel2, hbet⟩ := scan_fwd_found _ _ (i + 1) rfl e2 hsf
        refine ⟨j2, e2, by omega, hsd_of j2 e2 (by omega) hje2, hsel2, ?_, ?_⟩
        · intro m em h1 h2 hme
          exact hbet m em (by omega) h2 (htbl_of m em (by omega) hme)
        · show (if _ ∧ _ then _ else none) = some e2.id
          rw [if_pos hcond, hidx, htoNat, htoNat1, hsb, hsf]

/-- C3 witness: the spec's selection-promotion scenario: three selected
dives with ids 1, 2, 3, current id 2; deselecting the middle dive leaves
`amount_selected = 2` and promotes the earlier selected dive (id 1). -/
theorem deselect_dive_spec_witness :
    (deselect_dive exStThreeSel 1).amount_selected + 1
        = exStThreeSel.amount_selected ∧
    ∃ j2 e2, j2 < 1 ∧ exStThreeSel.dives[j2]? = some e2 ∧ e2.selected = true ∧
      (∀ m em, j2 < m → m < 1 → exStThreeSel.dives[m]? = some em →
        em.selected = false) ∧
      (deselect_dive exStThreeSel 1).current_dive = some e2.id := by
  have h := deselect_dive_spec exStThreeSel 1 (mkDive 2 200 0 1800 true)
    (by decide) (by decide) (by decide) (by simp only [sel_inv]; decide) (by decide)
  exact ⟨h.2.1, (h.2.2.2 (by decide)).2.1 0 (mkDive 1 100 0 1800 true)
    (by decide) (by decide) (by decide)⟩

/-- `deselect_dive` does nothing on a missing or unselected dive. -/
theorem deselect_dive_no_op (s : St) (i : Nat)
    (h : ∀ d, s.dives[i]? = some d → d.selected = false) :
    deselect_dive s i = s := by
  unfold deselect_dive
  cases hd : s.dives[i]? with
  | none => rfl
  | some d =>
    have hs := h d hd
    simp [hs]

/-- `deselect_dive` preserves the selection invariant and the table
length. -/
theorem sel_inv_deselect (s : St) (i : Nat)
    (hinv : sel_inv s) (hlen : s.dives.length < 2 ^ 32) :
    sel_inv (deselect_dive s i) ∧
    (deselect_dive s i).dives.length = s.dives.length := by
  cases hd : s.dives[i]? with
  | none => rw [deselect_dive_no_op s i (by intro e he; rw [hd] at he; exact absurd he (by simp))]
            exact ⟨hinv, rfl⟩
  | some d =>
    cases hs : d.selected with
    | false =>
      rw [deselect_dive_no_op s i (by intro e he; rw [hd] at he; injection he with h2; rw [← h2]; exact hs)]
      exact ⟨hinv, rfl⟩
    | true =>
      have hinv2 : s.amount_selected = count_selected s.dives := hinv
      have hcnt : 1 ≤ count_selected s.dives := count_selected_pos s.dives i d hd hs
      have hcle : count_selected s.dives ≤ s.dives.length := count_selected_le s.dives
      have hcnt_tbl : count_selected (s.dives.set i { d with selected := false }) + 1
          = count_selected s.dives := by
        have := count_selected_set s.dives i d { d with selected := false } hd
        simpa [hs] using this
      rw [deselect_dive_unfold s i d hd hs]
      constructor
      · show (if s.amount_selected ≠ 0 then dec32 s.amount_selected
            else s.amount_selected)
          = count_selected (s.dives.set i { d with selected := false })
        rw [if_pos (by omega), dec32_eq _ (by omega) (by omega)]
        omega
      · simp

/-- Replacing an entry by one with the same selected bit keeps the
count. -/
theorem count_selected_set_same (tbl : List Dive) (i : Nat) (d e : Dive)
    (h : tbl[i]? = some d) (hse : e.selected = d.selected) :
    count_selected (tbl.set i e) = count_selected tbl := by
  have hc := count_selected_set tbl i d e h
  rw [hse] at hc
  omega

/-- Selecting an unselected entry raises the count by one. -/
theorem count_selected_set_toggle (tbl : List Dive) (i : Nat) (d : Dive)
    (h : tbl[i]? = some d) (hs : d.selected = false) :
    count_selected (tbl.set i { d with selected := true })
      = count_selected tbl + 1 := by
  have hc := count_selected_set tbl i d { d with selected := true } h
  rw [hs] at hc
  simpa using hc

/-- `unregister_dive_from_trip` keeps the counter and at most clears
the trip reference of the dive at the index. -/
theorem unregister_dive_from_trip_shape (s : St) (idx : Nat) :
    (unregister_dive_from_trip s idx).1.amount_selected = s.amount_selected ∧
    ((unregister_dive_from_trip s idx).1.dives = s.dives ∨
      ∃ d, s.dives[idx]? = some d ∧
        (unregister_dive_from_trip s idx).1.dives
          = s.dives.set idx { d with divetrip := none }) := by
  unfold unregister_dive_from_trip
  split
  · exact ⟨rfl, Or.inl rfl⟩
  · rename_i d hd
    split
    · exact ⟨rfl, Or.inl rfl⟩
    · exact ⟨rfl, Or.inr ⟨d, hd, rfl⟩⟩

/-- `remove_dive_from_trip` only edits the trip table beyond what
`unregister_dive_from_trip` did. -/
theorem remove_dive_from_trip_eqs (s : St) (idx : Nat) :
    (remove_dive_from_trip s idx).amount_selected
        = (unregister_dive_from_trip s idx).1.amount_selected ∧
    (remove_dive_from_trip s idx).dives
        = (unregister_dive_from_trip s idx).1.dives := by
  simp only [remove_dive_from_trip]
  split
  · exact ⟨rfl, rfl⟩
  · split
    · exact ⟨rfl, rfl⟩
    · split_ifs <;> exact ⟨rfl, rfl⟩

/-- `remove_dive_from_trip` never touches the selection counter and at
most clears the trip reference of the dive at the given index. -/
theorem remove_dive_from_trip_shape (s : St) (idx : Nat) :
    (remove_dive_from_trip s idx).amount_selected = s.amount_selected ∧
    ((remove_dive_from_trip s idx).dives = s.dives ∨
      ∃ d, s.dives[idx]? = some d ∧
        (remove_dive_from_trip s idx).dives
          = s.dives.set idx { d with divetrip := none }) := by
  obtain ⟨h1, h2⟩ := remove_dive_from_trip_eqs s idx
  obtain ⟨h3, h4⟩ := unregister_dive_from_trip_shape s idx
  exact ⟨h1.trans h3, by rw [h2]; exact h4⟩

/-- C4: the invariant `amount_selected = |{d in the global table :
d.selected}|` is preserved by `select_dive`, `deselect_dive`,
`filter_dive`, `unregister_dive`, `add_single_dive` and
`delete_single_dive`. -/
theorem amount_selected_invariant (s : St) (i idx : Nat) (d : Dive) (shown : Bool)
    (hinv : sel_inv s) (hlen : s.dives.length + 1 < 2 ^ 32)
    (hidx : idx ≤ s.dives.length) :
    sel_inv (select_dive s i) ∧
    sel_inv (deselect_dive s i) ∧
    sel_inv (filter_dive s i shown) ∧
    sel_inv (unregister_dive s i).1 ∧
    sel_inv (add_single_dive s idx d) ∧
    sel_inv (delete_single_dive s i) := by
  have hinv2 : s.amount_selected = count_selected s.dives := hinv
  have hcle : count_selected s.dives ≤ s.dives.length := count_selected_le s.dives
  refine ⟨?_, (sel_inv_deselect s i hinv (by omega)).1, ?_, ?_, ?_, ?_⟩
  · -- select_dive
    simp only [select_dive]
    split
    · exact hinv
    · rename_i d0 hd0
      cases hs : d0.selected with
      | true =>
        simp only [hs, Bool.not_true, Bool.false_eq_true, if_false]
        exact hinv
      | false =>
        simp only [hs, Bool.not_false, if_true]
        have hcnt := count_selected_set_toggle s.dives i d0 hd0 hs
        show inc32 s.amount_selected
          = count_selected (s.dives.set i { d0 with selected := true })
        rw [inc32_eq _ (by omega), hcnt]
        omega
  · -- filter_dive
    simp only [filter_dive]
    split
    · exact hinv
    · rename_i d0 hd0
      have hcnt2 : count_selected (s.dives.set i { d0 with hidden_by_filter := !shown })
          = count_selected s.dives :=
        count_selected_set_same s.dives i d0 { d0 with hidden_by_filter := !shown } hd0 rfl
      have hinvs2 : sel_inv
          { s with dives := s.dives.set i { d0 with hidden_by_filter := !shown } } := by
        show s.amount_selected = _
        rw [hcnt2]
        exact hinv2
      split_ifs with hcond
      · refine (sel_inv_deselect _ i hinvs2 ?_).1
        show (s.dives.set i { d0 with hidden_by_filter := !shown }).length < 2 ^ 32
        simp only [List.length_set]
        omega
      · exact hinvs2
  · -- unregister_dive
    simp only [unregister_dive]
    split
    · exact hinv
    · rename_i d0 hd0
      have hcnt := count_selected_eraseIdx s.dives i d0 hd0
      by_cases hs : d0.selected = true
      · have hpos : 1 ≤ count_selected s.dives := count_selected_pos s.dives i d0 hd0 hs
        show (if d0.selected = true then dec32 s.amount_selected else s.amount_selected)
          = count_selected (s.dives.eraseIdx i)
        rw [if_pos hs, dec32_eq _ (by omega) (by omega)]
        rw [hs] at hcnt
        simp at hcnt
        omega
      · show (if d0.selected = true then dec32 s.amount_selected else s.amount_selected)
          = count_selected (s.dives.eraseIdx i)
        rw [if_neg hs]
        rw [Bool.not_eq_true] at hs
        rw [hs] at hcnt
        simp at hcnt
        omega
  · -- add_single_dive
    simp only [add_single_dive]
    have hcnt := count_selected_insertIdx s.dives idx d hidx
    by_cases hs : d.selected = true
    · show (if d.selected = true then inc32 s.amount_selected else s.amount_selected)
        = count_selected (s.dives.insertIdx idx d)
      rw [if_pos hs, inc32_eq _ (by omega)]
      rw [hs] at hcnt
      simp at hcnt
      omega
    · show (if d.selected = true then inc32 s.amount_selected else s.amount_selected)
        = count_selected (s.dives.insertIdx idx d)
      rw [if_neg hs]
      rw [Bool.not_eq_true] at hs
      rw [hs] at hcnt
      simp at hcnt
      omega
  · -- delete_single_dive
    simp only [delete_single_dive]
    split
    · exact hinv
    · rename_i d0 hd0
      have step1 : sel_inv (if d0.selected then deselect_dive s i else s) ∧
          (if d0.selected then deselect_dive s i else s).dives.length
            = s.dives.length ∧
          ∃ d1, (if d0.selected then deselect_dive s i else s).dives[i]? = some d1 ∧
            d1.selected = false := by
        cases hs : d0.selected with
        | true =>
          rw [if_pos rfl]
          obtain ⟨h1, h2⟩ := sel_inv_deselect s i hinv (by omega)
          refine ⟨h1, by rw [deselect_dive_unfold s i d0 hd0 hs]; simp,
                  { d0 with selected := false }, ?_, rfl⟩
          rw [deselect_dive_unfold s i d0 hd0 hs]
          have hlt : i < s.dives.length := (List.getElem?_eq_some.mp hd0).1
          show (s.dives.set i { d0 with selected := false })[i]? = _
          simp [List.getElem?_set_self, hlt]
        | false =>
          rw [if_neg (by simp)]
          exact ⟨hinv, rfl, d0, hd0, hs⟩
      obtain ⟨hs1inv, hs1len, d1, hs1i, hs1sel⟩ := step1
      obtain ⟨hs2amo, hs2dives⟩ :=
        remove_dive_from_trip_shape (if d0.selected then deselect_dive s i else s) i
      have hs2inv : (remove_dive_from_trip
          (if d0.selected then deselect_dive s i else s) i).amount_selected
          = count_selected (remove_dive_from_trip
            (if d0.selected then deselect_dive s i else s) i).dives := by
        rcases hs2dives with h2 | ⟨d2, hd2, h2⟩
        · rw [hs2amo, h2]
          exact hs1inv
        · rw [hs2amo, h2]
          have hcnt2 : count_selected ((if d0.selected then deselect_dive s i
              else s).dives.set i { d2 with divetrip := none })
              = count_selected (if d0.selected then deselect_dive s i else s).dives :=
            count_selected_set_same _ i d2 { d2 with divetrip := none } hd2 rfl
          rw [hcnt2]
          exact hs1inv
      have hs2i : ∃ d2, (remove_dive_from_trip
          (if d0.selected then deselect_dive s i else s) i).dives[i]? = some d2 ∧
          d2.selected = false := by
        rcases hs2dives with h2 | ⟨d2, hd2, h2⟩
        · exact ⟨d1, by rw [h2]; exact hs1i, hs1sel⟩
        · have hlt : i < (if d0.selected then deselect_dive s i else s).dives.length :=
            (List.getElem?_eq_some.mp hd2).1
          refine ⟨{ d2 with divetrip := none }, ?_, ?_⟩
          · rw [h2]
            simp [List.getElem?_set_self, hlt]
          · have hdd : d1 = d2 := by
              rw [hs1i] at hd2
              injection hd2
            rw [← hdd]
            exact hs1sel
      obtain ⟨d2, hd2i, hd2sel⟩ := hs2i
      have hcnt := count_selected_eraseIdx _ i d2 hd2i
      show (remove_dive_from_trip (if d0.selected then deselect_dive s i else s)
          i).amount_selected
        = count_selected ((remove_dive_from_trip
            (if d0.selected then deselect_dive s i else s) i).dives.eraseIdx i)
      simp [hd2sel] at hcnt
      omega

/-- C4 witness: the invariant holds after each of the six operations on
the three-selected-dive state. -/
theorem amount_selected_invariant_witness :
    sel_inv (select_dive exStThreeSel 0) ∧
    sel_inv (deselect_dive exStThreeSel 0) ∧
    sel_inv (filter_dive exStThreeSel 0 false) ∧
    sel_inv (unregister_dive exStThreeSel 0).1 ∧
    sel_inv (add_single_dive exStThreeSel 1 (mkDive 9 150 0 60 true)) ∧
    sel_inv (delete_single_dive exStThreeSel 0) :=
  amount_selected_invariant exStThreeSel 0 1 (mkDive 9 150 0 60 true) false
    (by simp only [sel_inv]; decide) (by decide) (by decide)

/-- A dive starting strictly earlier sorts strictly before. -/
theorem dlt_of_when_lt (ds : List Dive) (ts : List Trip) (a b : Dive)
    (h : a.dwhen < b.dwhen) : dive_less_than ds ts a b = true := by
  simp [dive_less_than, comp_dives, h]

/-- A dive starting strictly later never sorts before. -/
theorem dlt_false_of_when_gt (ds : List Dive) (ts : List Trip) (a b : Dive)
    (h : b.dwhen < a.dwhen) : dive_less_than ds ts a b = false := by
  have h1 : ¬ a.dwhen < b.dwhen := by omega
  simp [dive_less_than, comp_dives, h1, h]

/-- The last element of a list is a member. -/
theorem mem_of_getLast_some (l : List Dive) (a : Dive) (h : l.getLast? = some a) :
    a ∈ l := by
  rw [List.getLast?_eq_getElem?] at h
  exact List.getElem?_mem h

/-- Sorting a table that is already in strictly ascending order is a
no-op. -/
theorem sort_dive_table_sorted (ds : List Dive) (ts : List Trip) :
    ∀ l, List.Chain' (fun a b => dive_less_than ds ts a b = true) l →
    sort_dive_table ds ts l = l := by
  intro l
  induction l with
  | nil => intro _; rfl
  | cons x xs ih =>
    intro hc
    show insert_sorted_dive (dive_less_than ds ts) x (sort_dive_table ds ts xs) = x :: xs
    rw [ih hc.tail]
    cases xs with
    | nil => rfl
    | cons y ys =>
      have hxy : dive_less_than ds ts x y = true := (List.chain'_cons.mp hc).1
      simp [insert_sorted_dive, hxy]

/-- `merge_imported_dives` leaves a table of positive-duration,
non-overlapping dives unchanged. -/
theorem merge_imported_noop (tm : Dive → Dive → Bool → Option Dive) :
    ∀ l, (∀ d ∈ l, d.duration ≠ 0) →
    List.Chain' (fun a b => dive_endtime a < b.dwhen) l →
    merge_imported_dives tm l = l := by
  intro l
  induction l with
  | nil => intro _ _; simp [merge_imported_dives]
  | cons prev rest ih =>
    intro hdur hc
    cases rest with
    | nil => simp [merge_imported_dives]
    | cons dive rest2 =>
      have hcond : prev.duration ≠ 0 ∧ dive.duration ≠ 0 ∧
          dive_endtime prev < dive.dwhen :=
        ⟨hdur prev (by simp), hdur dive (by simp), (List.chain'_cons.mp hc).1⟩
      simp only [merge_imported_dives]
      rw [if_pos hcond, ih (fun d hd => hdur d (by simp [hd])) hc.tail]

/-- The two-pointer advance runs to the end of the target table when the
incoming dive sorts after every entry. -/
theorem advance_insertion_full (ds : List Dive) (ts : List Trip)
    (dto : List Dive) (d : Dive)
    (h : ∀ x ∈ dto, dive_less_than ds ts x d = true) :
    ∀ (fuel j : Nat), dto.length - j = fuel → j ≤ dto.length →
    advance_insertion ds ts dto d j = dto.length := by
  intro fuel
  induction fuel with
  | zero =>
    intro j hf hj
    unfold advance_insertion
    rw [dif_neg (by omega)]
    omega
  | succ m ih =>
    intro j hf hj
    have hjl : j < dto.length := by omega
    unfold advance_insertion
    rw [dif_pos hjl, if_pos (h dto[j] (List.getElem_mem hjl))]
    exact ih (j + 1) (by omega) (by omega)

/-- The insertion index of a dive that sorts after every entry is the
table length (append position). -/
theorem dive_insertion_index_end (ds : List Dive) (ts : List Trip) (d : Dive) :
    ∀ P, (∀ x ∈ P, dive_less_than ds ts d x = false) →
    dive_insertion_index ds ts d P = P.length := by
  intro P
  induction P with
  | nil => intro _; rfl
  | cons x rest ih =>
    intro h
    show (if dive_less_than ds ts d x then 0
        else dive_insertion_index ds ts d rest + 1) = rest.length + 1
    rw [if_neg (by simp [h x (by simp)]), ih fun y hy => h y (by simp [hy])]

/-- `renumber_loop` does not touch ids. -/
theorem renumber_loop_map_id : ∀ (nr : Int) (l : List Dive),
    (renumber_loop nr l).map Dive.id = l.map Dive.id := by
  intro nr l
  induction l generalizing nr with
  | nil => rfl
  | cons d rest ih => simp [renumber_loop, ih]

/-- `renumber_loop` hands out consecutive numbers starting above `nr`. -/
theorem renumber_loop_numbers : ∀ (l : List Dive) (nr : Int) (k : Nat),
    k < l.length →
    ((renumber_loop nr l)[k]?).map Dive.number = some (nr + k + 1) := by
  intro l
  induction l with
  | nil => intro nr k hk; simp at hk
  | cons d rest ih =>
    intro nr k hk
    cases k with
    | zero => simp [renumber_loop]
    | succ k2 =>
      have := ih (nr + 1) k2 (by simpa using hk)
      simp only [renumber_loop, List.getElem?_cons_succ]
      rw [this]
      congr 1
      push_cast
      ring

/-- The trip-merging loop over an empty import trip table is inert. -/
theorem import_trips_loop_nil (tm : Dive → Dive → Bool → Option Dive)
    (ds : List Dive) (ts : List Trip) (global : List Dive)
    (global_trips : List Trip) (flags : ImportFlags) :
    ∀ (fuel i : Nat) (acc : MergeAcc) (tta : List Trip),
    import_trips_loop tm ds ts global global_trips flags [] fuel i acc tta
      = (acc, tta) := by
  intro fuel
  cases fuel <;> intro i acc tta <;> simp [import_trips_loop]

/-- `autogroup_dives` with the user toggle off is the identity. -/
theorem autogroup_dives_off (st : AgState) : autogroup_dives false st = st := by
  simp [autogroup_dives]

/-- The two-pointer merge walk on a pure append: every incoming dive
starts after every dive of the global table and after the end of its
last dive, and the incoming dives are strictly ascending, so nothing
merges and each dive is appended (tripless) to `dives_to_add` in order,
with the sequence flag, removal table and merge counter untouched. -/
theorem merge_loop_pure_append (tm : Dive → Dive → Bool → Option Dive)
    (ds : List Dive) (ts : List Trip) (global : List Dive) (prefer : Bool)
    (glast : Dive) (hglast : global.getLast? = some glast) :
    ∀ (imports P R : List Dive) (n : Nat) (bseq : Bool) (j : Nat) (lmi : Int),
    j ≤ global.length →
    (∀ d ∈ imports, dive_endtime glast ≤ d.dwhen) →
    (∀ x ∈ global, ∀ d ∈ imports, x.dwhen < d.dwhen) →
    (∀ x ∈ P, ∀ d ∈ imports, x.dwhen < d.dwhen) →
    List.Pairwise (fun a b => a.dwhen < b.dwhen) imports →
    merge_tables_loop tm ds ts global prefer none global imports j lmi
      { import_left := none, to_add := P, to_remove := R,
        num_merged := n, seq_changed := bseq }
    = { import_left := none,
        to_add := P ++ imports.map (fun d => { d with divetrip := none }),
        to_remove := R, num_merged := n, seq_changed := bseq } := by
  intro imports
  induction imports with
  | nil =>
    intro P R n bseq j lmi _ _ _ _ _
    simp [merge_tables_loop]
  | cons d rest ih =>
    intro P R n bseq j lmi hj hEnd hGlob hP hPair
    have hmemd : d ∈ d :: rest := by simp
    have hlen_pos : 0 < global.length := by
      have := mem_of_getLast_some global glast hglast
      exact List.length_pos.mpr (List.ne_nil_of_mem this)
    have hadv : advance_insertion ds ts global d j = global.length :=
      advance_insertion_full ds ts global d
        (fun x hx => dlt_of_when_lt ds ts x d (hGlob x hx d hmemd))
        (global.length - j) j rfl hj
    have hglast_idx : global[global.length - 1]? = some glast := by
      rw [← List.getLast?_eq_getElem?]
      exact hglast
    have hend_at : endtime_at global (global.length - 1) = dive_endtime glast := by
      simp [endtime_at, hglast_idx]
    have hprev_no : ¬ (0 < global.length ∧
        (global.length : Int) - 1 > lmi ∧
        endtime_at global (global.length - 1) > d.dwhen) := by
      rw [hend_at]
      have := hEnd d hmemd
      intro hcon
      omega
    have hnext_no : ¬ (global.length < global.length ∧
        (global.length : Int) > lmi ∧ dive_endtime d > when_at global global.length) := by
      intro hcon
      omega
    have hafter : dive_is_after_last ds ts global d = true := by
      unfold dive_is_after_last
      rw [hglast]
      exact dlt_of_when_lt ds ts glast d
        (hGlob glast (mem_of_getLast_some global glast hglast) d hmemd)
    have hidx : dive_insertion_index ds ts d P = P.length :=
      dive_insertion_index_end ds ts d P
        (fun x hx => dlt_false_of_when_gt ds ts d x (hP x hx d hmemd))
    simp only [merge_tables_loop, Option.map_none, Option.map_none', hadv,
      if_neg hprev_no, if_neg hnext_no, hidx, hafter, Bool.not_true, Bool.or_false]
    rw [List.insertIdx_length_self]
    have ihr := ih (P ++ [{ d with divetrip := none }]) R n bseq global.length lmi
      (le_refl _)
      (fun e he => hEnd e (by simp [he]))
      (fun x hx e he => hGlob x hx e (by simp [he]))
      (by
        intro x hx e he
        rcases List.mem_append.mp hx with h1 | h1
        · exact hP x h1 e (by simp [he])
        · have hx2 : x = { d with divetrip := none } := by simpa using h1
          rw [hx2]
          show d.dwhen < e.dwhen
          exact (List.pairwise_cons.mp hPair).1 e he)
      (List.pairwise_cons.mp hPair).2
    rw [ihr]
    simp

/-- The output of the planner on a pure-append import: all imported
dives appended (tripless) and renumbered from the last global dive's
number. -/
theorem process_imported_pure_append_eq (tm : Dive → Dive → Bool → Option Dive)
    (s : St) (import_table : List Dive) (glast : Dive)
    (hglast : s.dives.getLast? = some glast)
    (hnum : (s.dives.length : Int) ≤ glast.number)
    (hne : import_table ≠ [])
    (hnn : ∀ d ∈ import_table, d.number ≤ 0)
    (hdur : ∀ d ∈ import_table, d.duration ≠ 0)
    (hsorted : List.Pairwise (fun a b => a.dwhen < b.dwhen) import_table)
    (hgap : List.Chain' (fun a b => dive_endtime a < b.dwhen) import_table)
    (hafter : ∀ x ∈ s.dives, ∀ d ∈ import_table, x.dwhen < d.dwhen)
    (hend : ∀ d ∈ import_table, dive_endtime glast ≤ d.dwhen) :
    process_imported_dives tm s false exFlags import_table [] =
      ⟨renumber_loop glast.number
          (import_table.map fun d => { d with divetrip := none }), [], []⟩ := by
  have hlen0 : ¬ import_table.length = 0 := by
    simpa [List.length_eq_zero] using hne
  have hchain_dlt : List.Chain' (fun a b =>
      dive_less_than (s.dives ++ import_table) s.trips a b = true)
      import_table :=
    List.Chain'.imp (fun a b hab => dlt_of_when_lt _ _ a b hab)
      (List.Pairwise.chain' hsorted)
  have hsorteq : sort_dive_table (s.dives ++ import_table) s.trips
      import_table = import_table :=
    sort_dive_table_sorted _ _ import_table hchain_dlt
  have hmerge : merge_imported_dives tm import_table = import_table :=
    merge_imported_noop tm import_table hdur hgap
  have hany : (import_table.any fun d => d.number > 0) = false := by
    rw [List.any_eq_false]
    intro x hx
    simp only [decide_eq_true_eq]
    have := hnn x hx
    omega
  have hmain := merge_loop_pure_append tm (s.dives ++ import_table)
    s.trips s.dives false glast hglast import_table [] [] 0 false 0 (-1)
    (by omega) hend hafter (by simp) hsorted
  obtain ⟨d0, restI, rfl⟩ : ∃ d0 restI, import_table = d0 :: restI := by
    cases import_table with
    | nil => exact absurd rfl hne
    | cons a b => exact ⟨a, b, rfl⟩
  simp only [process_imported_dives, exFlags, Bool.not_false, eq_self_iff_true,
    if_true, List.append_nil]
  rw [if_neg hlen0]
  rw [hsorteq, hmerge, autogroup_dives_off]
  rw [import_trips_loop_nil]
  dsimp only
  simp only [Option.getD_some, List.append_nil]
  rw [if_pos (by simp : 0 < (d0 :: restI).length)]
  rw [show merge_dive_tables tm (s.dives ++ d0 :: restI) s.trips
        s.dives false none (d0 :: restI) s.dives
        { import_left := none, to_add := [], to_remove := [],
          num_merged := 0, seq_changed := false }
      = _ from hmain]
  rw [hglast]
  rw [hany]
  rw [if_pos ⟨by simp, hnum, by simp⟩]
  simp

/-- Clearing the trip field does not touch ids. -/
theorem map_id_strip_trip (l : List Dive) :
    (l.map fun d => { d with divetrip := none }).map Dive.id = l.map Dive.id := by
  induction l with
  | nil => rfl
  | cons d rest ih => simp [ih]

/-- `renumber_loop` preserves the length. -/
theorem renumber_loop_length : ∀ (nr : Int) (l : List Dive),
    (renumber_loop nr l).length = l.length := by
  intro nr l
  induction l generalizing nr with
  | nil => rfl
  | cons d rest ih => simp [renumber_loop, ih]

/-- C1 counterexample: the global table `exStLowNumber` has two dives,
its last dive carries the non-zero number 1 (but 1 < table size 2); a
single numberless dive imported strictly after it satisfies every
hypothesis of the claim, yet `process_imported_dives` leaves its number
at 0 instead of assigning 2: the code renumbers only when the last
number is at least the prior table size (`nr >= preexisting`), not
whenever it is non-zero. -/
theorem renumber_claim_cex :
    exStLowNumber.dives.getLast?.map Dive.number = some 1 ∧
    (1 : Int) ≠ 0 ∧
    (mkDive 3 1000 0 60 false).number = 0 ∧
    dive_is_after_last (exStLowNumber.dives ++ [mkDive 3 1000 0 60 false]) []
      exStLowNumber.dives (mkDive 3 1000 0 60 false) = true ∧
    (process_imported_dives tmNone exStLowNumber false exFlags
        [mkDive 3 1000 0 60 false] []).to_add.map Dive.number = [0] ∧
    ([0] : List Int) ≠ [2] := by
  refine ⟨by decide, by decide, by decide, by decide, ?_, by decide⟩
  simp +decide [process_imported_dives, sort_dive_table, insert_sorted_dive,
    merge_imported_dives, autogroup_dives, import_trips_loop, merge_dive_tables,
    merge_tables_loop, advance_insertion, try_to_merge_into, dive_insertion_index,
    insert_dive, dive_is_after_last, dive_less_than, comp_dives, trip_date_ref,
    endtime_at, when_at, dive_endtime, remove_dive_listed, renumber_loop,
    exStLowNumber, exFlags, mkDive, tmNone]

/-- C1 (amended): after `process_imported_dives`, when every imported
dive lies strictly after the prior last dive of the global table (so the
sequence does not change), no imported dive carries a number > 0, and
the prior last dive's number is at least the prior size of the global
table (the code's `nr >= preexisting` test — merely non-zero is not
enough), the dives in `dives_to_add` are exactly the imported dives in
order, numbered consecutively from `prior_last.number + 1`; nothing is
removed and no trips are added. -/
theorem renumber_pure_append (tm : Dive → Dive → Bool → Option Dive)
    (s : St) (import_table : List Dive) (glast : Dive)
    (hglast : s.dives.getLast? = some glast)
    (hnum : (s.dives.length : Int) ≤ glast.number)
    (hne : import_table ≠ [])
    (hnn : ∀ d ∈ import_table, d.number ≤ 0)
    (hdur : ∀ d ∈ import_table, d.duration ≠ 0)
    (hsorted : List.Pairwise (fun a b => a.dwhen < b.dwhen) import_table)
    (hgap : List.Chain' (fun a b => dive_endtime a < b.dwhen) import_table)
    (hafter : ∀ x ∈ s.dives, ∀ d ∈ import_table, x.dwhen < d.dwhen)
    (hend : ∀ d ∈ import_table, dive_endtime glast ≤ d.dwhen) :
    (process_imported_dives tm s false exFlags import_table []).to_add.map Dive.id
        = import_table.map Dive.id ∧
    (∀ k, k < (process_imported_dives tm s false exFlags
        import_table []).to_add.length →
      ((process_imported_dives tm s false exFlags
          import_table []).to_add[k]?).map Dive.number
        = some (glast.number + k + 1)) ∧
    (process_imported_dives tm s false exFlags import_table []).to_remove = [] ∧
    (process_imported_dives tm s false exFlags import_table []).trips_to_add = [] := by
  have heq := process_imported_pure_append_eq tm s import_table glast hglast hnum
    hne hnn hdur hsorted hgap hafter hend
  refine ⟨?_, ?_, ?_, ?_⟩
  · rw [heq]
    show (renumber_loop glast.number
        (import_table.map fun d => { d with divetrip := none })).map Dive.id = _
    rw [renumber_loop_map_id, map_id_strip_trip]
  · intro k hk
    rw [heq] at hk ⊢
    have hk2 : k < (import_table.map fun d => { d with divetrip := none }).length := by
      have hl := renumber_loop_length glast.number
        (import_table.map fun d => { d with divetrip := none })
      dsimp only at hk
      omega
    exact renumber_loop_numbers _ glast.number k hk2
  · rw [heq]
  · rw [heq]

/-- C1 witness: the spec's renumbering scenario: the global table ends
with the dive numbered 42 (table size 1 ≤ 42), three numberless
non-overlapping dives are imported strictly after it, and the added
dives come out numbered 43, 44, 45. -/
theorem renumber_pure_append_witness :
    (process_imported_dives tmNone exStNum42 false exFlags
        [mkDive 3 1000 0 60 false, mkDive 4 2000 0 60 false,
         mkDive 5 3000 0 60 false] []).to_add.map Dive.id
      = [mkDive 3 1000 0 60 false, mkDive 4 2000 0 60 false,
         mkDive 5 3000 0 60 false].map Dive.id ∧
    (∀ k, k < (process_imported_dives tmNone exStNum42 false exFlags
        [mkDive 3 1000 0 60 false, mkDive 4 2000 0 60 false,
         mkDive 5 3000 0 60 false] []).to_add.length →
      ((process_imported_dives tmNone exStNum42 false exFlags
          [mkDive 3 1000 0 60 false, mkDive 4 2000 0 60 false,
           mkDive 5 3000 0 60 false] []).to_add[k]?).map Dive.number
        = some (42 + k + 1)) ∧
    (process_imported_dives tmNone exStNum42 false exFlags
        [mkDive 3 1000 0 60 false, mkDive 4 2000 0 60 false,
         mkDive 5 3000 0 60 false] []).to_remove = [] ∧
    (process_imported_dives tmNone exStNum42 false exFlags
        [mkDive 3 1000 0 60 false, mkDive 4 2000 0 60 false,
         mkDive 5 3000 0 60 false] []).trips_to_add = [] :=
  renumber_pure_append tmNone exStNum42
    [mkDive 3 1000 0 60 false, mkDive 4 2000 0 60 false, mkDive 5 3000 0 60 false]
    (mkDive 1 100 42 60 false) (by decide) (by decide) (by decide) (by decide)
    (by decide) (by decide)
    (by simp only [List.chain'_cons, List.chain'_singleton]
        exact ⟨by decide, by decide, trivial⟩)
    (by decide) (by decide)

end Divelist
